import Mathlib

/-!
Verification of the text-sanitation core of an LLM-driven React/CSS
generation pipeline.  The definitions below are a shallow embedding of
`app/agent/code_utils.py` (fenced-block extraction and import filtering),
`app/agent/css_utils.py` (line-oriented CSS repair and the baseline
variable block) and the whole-text cleanup regexes of the legacy
`clean_css` in `app/agent/workflow.py`.  Strings are modelled as
`List Char`; Python regular-expression substitutions are modelled by
direct character scanners that reproduce the engine's left-to-right,
non-overlapping matching.
-/

set_option maxRecDepth 100000

namespace Sanitizer

/-- backtick -/
def bq : Char := Char.ofNat 96

/-- opening brace -/
def lbrace : Char := Char.ofNat 123

/-- closing brace -/
def rbrace : Char := Char.ofNat 125

def lf : Char := '\n'

def cr : Char := '\r'

def semi : Char := ';'

def commaC : Char := ','

def colonC : Char := ':'

def spC : Char := ' '

def tabC : Char := '\t'

/-- Whitespace as recognised by Python's `str.strip` and by `\s` in the
regex patterns used by the source (ASCII range). -/
def isPyWs (c : Char) : Bool :=
  c == ' ' || c == '\t' || c == '\n' || c == '\r' || c == '\x0b' || c == '\x0c'

/-- Line boundaries recognised by Python's `str.splitlines`. -/
def isLineBreak (c : Char) : Bool :=
  c == '\n' || c == '\r' || c == '\x0b' || c == '\x0c' || c == '\x1c' ||
  c == '\x1d' || c == '\x1e' || c == '\x85' || c == '\u2028' || c == '\u2029'

/-- `[a-zA-Z]` of the fence regex. -/
def isAsciiAlpha (c : Char) : Bool :=
  ('a' ≤ c && c ≤ 'z') || ('A' ≤ c && c ≤ 'Z')

/-- `pat` is a prefix of `s`. -/
def isPrefixL : List Char → List Char → Bool
  | [], _ => true
  | _ :: _, [] => false
  | a :: as, b :: bs => a == b && isPrefixL as bs

/-- Python's substring test `pat in s`. -/
def containsSub (pat : List Char) : List Char → Bool
  | [] => pat.isEmpty
  | c :: rest => isPrefixL pat (c :: rest) || containsSub pat rest

/-- Python `str.strip()` (whitespace from both ends). -/
def stripPy (s : List Char) : List Char :=
  ((s.dropWhile isPyWs).reverse.dropWhile isPyWs).reverse

/-- Python `str.rstrip('\x7b')`: trailing opening braces removed. -/
def rstripBrace (s : List Char) : List Char :=
  (s.reverse.dropWhile (· == lbrace)).reverse

/-- Python `str.split('\n')`. -/
def splitNl : List Char → List (List Char)
  | [] => [[]]
  | c :: rest =>
    if c == lf then [] :: splitNl rest
    else
      match splitNl rest with
      | l :: ls => (c :: l) :: ls
      | [] => [[c]]

/-- Python `'\n'.join(lines)`. -/
def joinNl : List (List Char) → List Char
  | [] => []
  | [l] => l
  | l :: ls => l ++ lf :: joinNl ls

/-- Worker for Python `str.splitlines` (`cur` holds the current line
reversed).  A line is emitted at every boundary and at the end of the
text; `skipLf` consumes the `\n` of a `\r\n` pair silently. -/
def slAll (skipLf : Bool) (cur : List Char) : List Char → List (List Char)
  | [] => [cur.reverse]
  | c :: rest =>
    if skipLf && c == lf then slAll false cur rest
    else if c == cr then cur.reverse :: slAll true [] rest
    else if isLineBreak c then cur.reverse :: slAll false [] rest
    else slAll false (c :: cur) rest

/-- Python `str.splitlines()`: a boundary at the very end of the text
does not open a final empty line. -/
def splitlinesPy (s : List Char) : List (List Char) :=
  match s with
  | [] => []
  | _ :: _ =>
    let ls := slAll false [] s
    match s.getLast? with
    | some c => if isLineBreak c then ls.dropLast else ls
    | none => ls

/-- Generic left-to-right, non-overlapping scan-and-substitute engine.
`m s` decides whether a match starts at the head of `s`, returning the
length of the matched span and the replacement text.  The `Nat` argument
counts characters of the current match still to be consumed, which keeps
the recursion structural. -/
def subGo (m : List Char → Option (Nat × List Char)) : List Char → Nat → List Char
  | [], _ => []
  | _ :: rest, Nat.succ k => subGo m rest k
  | c :: rest, 0 =>
    match m (c :: rest) with
    | some (n, rep) => rep ++ subGo m rest (n - 1)
    | none => c :: subGo m rest 0

/-- Matcher for Python `str.replace(pat, rep)`. -/
def mLit (pat rep : List Char) (s : List Char) : Option (Nat × List Char) :=
  if !pat.isEmpty && isPrefixL pat s then some (pat.length, rep) else none

/-- Python `str.replace(pat, rep)` (left-to-right, non-overlapping). -/
def replaceStr (pat rep s : List Char) : List Char :=
  subGo (mLit pat rep) s 0

/-- Matcher for the regex `;+\s*\x7b` (replacement ` \x7b`): a run of
semicolons, optional whitespace, then an opening brace. -/
def mSemisBrace (s : List Char) : Option (Nat × List Char) :=
  match s with
  | c :: _ =>
    if c == semi then
      let b := (s.dropWhile (· == semi)).dropWhile isPyWs
      match b with
      | d :: _ => if d == lbrace then some (s.length - b.length + 1, [spC, lbrace]) else none
      | [] => none
    else none
  | [] => none

/-- `re.sub(r";+\s*\x7b", " \x7b", s)`. -/
def subSemisBrace (s : List Char) : List Char := subGo mSemisBrace s 0

/-- Matcher for the regex `,\s*;\s*` (replacement `, `). -/
def mCommaSemiWs (s : List Char) : Option (Nat × List Char) :=
  match s with
  | c :: rest =>
    if c == commaC then
      match rest.dropWhile isPyWs with
      | d :: w2 =>
        if d == semi then some (s.length - (w2.dropWhile isPyWs).length, [commaC, spC])
        else none
      | [] => none
    else none
  | [] => none

/-- `re.sub(r",\s*;\s*", ", ", s)`. -/
def subCommaSemiWs (s : List Char) : List Char := subGo mCommaSemiWs s 0

/-- Matcher for the regex `,\s*;` (replacement `;`). -/
def mCommaSemi (s : List Char) : Option (Nat × List Char) :=
  match s with
  | c :: rest =>
    if c == commaC then
      match rest.dropWhile isPyWs with
      | d :: w2 => if d == semi then some (s.length - w2.length, [semi]) else none
      | [] => none
    else none
  | [] => none

/-- `re.sub(r",\s*;", ";", s)`. -/
def subCommaSemi (s : List Char) : List Char := subGo mCommaSemi s 0

/-- Matcher for the regex `;\s*\x7b` (replacement ` \x7b`). -/
def mSemiBrace (s : List Char) : Option (Nat × List Char) :=
  match s with
  | c :: rest =>
    if c == semi then
      match rest.dropWhile isPyWs with
      | d :: _ =>
        if d == lbrace then some (s.length - (rest.dropWhile isPyWs).length + 1, [spC, lbrace])
        else none
      | [] => none
    else none
  | [] => none

/-- `re.sub(r";\s*\x7b", " \x7b", s)`. -/
def subSemiBrace (s : List Char) : List Char := subGo mSemiBrace s 0

/-- Worker for `re.sub(r";+", ";", s)`: a semicolon that immediately
follows an emitted semicolon is dropped. -/
def collapseSemisGo (prevSemi : Bool) : List Char → List Char
  | [] => []
  | c :: rest =>
    if c == semi then
      if prevSemi then collapseSemisGo true rest
      else semi :: collapseSemisGo true rest
    else c :: collapseSemisGo false rest

/-- `re.sub(r";+", ";", s)`. -/
def collapseSemis (s : List Char) : List Char := collapseSemisGo false s

/-- `re.sub(r";\s*$", "", s)` on a single line: the last semicolon is
removed when only whitespace follows it. -/
def subTrailingSemi (s : List Char) : List Char :=
  match s.reverse.dropWhile isPyWs with
  | c :: r2 => if c == semi then r2.reverse else s
  | [] => s

/-! ### `app/agent/code_utils.py` -/

def importTok : List Char := ("import").data

/-- The denylist of `clean_imports`. -/
def forbidden_imports : List (List Char) :=
  [("@headlessui/react").data, ("@heroicons/react").data, ("react-bootstrap").data,
   ("react-icons").data, ("react-bootstrap-icons").data, ("@fortawesome").data,
   ("font-awesome").data, ("react-fontawesome").data, ("antd").data,
   ("material-ui").data, ("@mui/material").data, ("semantic-ui-react").data,
   ("chakra-ui").data]

/-- A line is dropped by `clean_imports` when it contains a denylisted
fragment together with the substring `import`. -/
def skipLine (l : List Char) : Bool :=
  forbidden_imports.any (fun f => containsSub f l && containsSub importTok l)

def spClassEq : List Char := (" class=").data

def spClassNameEq : List Char := (" className=").data

def dqClassPat : List Char := ("\"class\"").data

def dqClassNamePat : List Char := ("\"className\"").data

def sqClassPat : List Char := ("'class'").data

def sqClassNamePat : List Char := ("'className'").data

/-- `clean_imports` from `code_utils.py`: React attribute-spelling fixes,
then the per-line denylist filter, rejoined with `\n`. -/
def clean_imports (code : List Char) : List Char :=
  if code == [] then []
  else
    let c1 := replaceStr spClassEq spClassNameEq code
    let c2 := replaceStr dqClassPat dqClassNamePat c1
    let c3 := replaceStr sqClassPat sqClassNamePat c2
    joinNl ((splitlinesPy c3).filter (fun l => !skipLine l))

def bq3 : List Char := [bq, bq, bq]

def bq3nl : List Char := [bq, bq, bq, lf]

/-- The lazy body part `([\s\S]*?)` up to and over the next closing
triple backtick; `none` when no closing fence exists. -/
def takeUntilFence : List Char → Option (List Char × List Char)
  | [] => none
  | c :: rest =>
    if isPrefixL bq3 (c :: rest) then some ([], rest.drop 2)
    else (takeUntilFence rest).map (fun p => (c :: p.1, p.2))

/-- One attempt of the `findall` pattern at the head of `s`:
triple backtick, `[a-zA-Z]*` tag, a newline, then a lazily matched body
up to the next triple backtick.  Returns tag, body and the rest of the
text after the closing fence. -/
def matchFenceAt (s : List Char) : Option (List Char × List Char × List Char) :=
  if isPrefixL bq3 s then
    match (s.drop 3).dropWhile isAsciiAlpha with
    | c :: t3 =>
      if c == lf then
        (takeUntilFence t3).map (fun p => ((s.drop 3).takeWhile isAsciiAlpha, p.1, p.2))
      else none
    | [] => none
  else none

/-- `re.findall` over the fence pattern: scan left to right, skipping a
character when no match starts here and the whole match otherwise.  The
fuel bounds the number of scanning steps; `none` models the scan running
out of fuel before the text is exhausted. -/
def scanFences : Nat → List Char → Option (List (List Char × List Char))
  | _, [] => some []
  | 0, _ :: _ => none
  | Nat.succ fuel, c :: rest =>
    match matchFenceAt (c :: rest) with
    | some (lang, body, rest2) => (scanFences fuel rest2).map (fun bs => (lang, body) :: bs)
    | none => scanFences fuel rest

/-- All fenced blocks of a text, scanned with fuel equal to its length. -/
def fencesO (text : List Char) : Option (List (List Char × List Char)) :=
  scanFences text.length text

def codeTags : List (List Char) :=
  [("js").data, ("jsx").data, ("javascript").data, ("typescript").data,
   ("tsx").data, ("ts").data, ("react").data]

def styleTags : List (List Char) :=
  [("css").data, ("scss").data, ("sass").data, ("less").data]

/-- One iteration of the classification loop of `extract_code_and_css`:
lower-case and trim the tag; a matching block overwrites the accumulator
field with its trimmed body. -/
def classifyStep (acc b : List Char × List Char) : List Char × List Char :=
  if codeTags.contains (stripPy (b.1.map Char.toLower)) then (stripPy b.2, acc.2)
  else if styleTags.contains (stripPy (b.1.map Char.toLower)) then (acc.1, stripPy b.2)
  else acc

/-- The classification loop of `extract_code_and_css`: the last block of
each class wins. -/
def classify (blocks : List (List Char × List Char)) : List Char × List Char :=
  blocks.foldl classifyStep ([], [])

/-- The block's normalised tag is in the code-tag set. -/
def isCodeTagged (b : List Char × List Char) : Bool :=
  codeTags.contains (stripPy (b.1.map Char.toLower))

/-- The block's normalised tag is in the style-tag set. -/
def isStyleTagged (b : List Char × List Char) : Bool :=
  styleTags.contains (stripPy (b.1.map Char.toLower))

/-- The fallback `re.search` for an untagged fence: triple backtick
directly followed by a newline, then a lazy body up to a closing fence. -/
def searchUntagged : List Char → Option (List Char)
  | [] => none
  | c :: rest =>
    if isPrefixL bq3nl (c :: rest) then
      match takeUntilFence ((c :: rest).drop 4) with
      | some p => some p.1
      | none => searchUntagged rest
    else searchUntagged rest

/-- `extract_code_and_css` from `code_utils.py`.  `none` only when the
fence scan runs out of fuel (which never happens, see the totality
theorem). -/
def extract_code_and_cssO (text : List Char) : Option (List Char × List Char) :=
  (fencesO text).map (fun blocks =>
    let p := classify blocks
    let js :=
      if p.1 == [] then
        match searchUntagged text with
        | some m => stripPy m
        | none => []
      else p.1
    (clean_imports js, p.2))

/-- The `re.search` of `extract_code`: optional `[a-zA-Z]+` tag line after
the opening fence, then a lazy body up to the next closing fence.  When
the tag shape is present but no closing fence follows, no closing fence
follows the untagged start either, so the scan moves on one character,
matching the regex engine's backtracking. -/
def searchCode : List Char → Option (List Char)
  | [] => none
  | c :: rest =>
    if isPrefixL bq3 (c :: rest) then
      let t0 := (c :: rest).drop 3
      let run := t0.takeWhile isAsciiAlpha
      let withTag : Option (List Char) :=
        if run.isEmpty then none
        else
          match t0.dropWhile isAsciiAlpha with
          | d :: t2 => if d == lf then some t2 else none
          | [] => none
      match withTag with
      | some t2 =>
        match takeUntilFence t2 with
        | some p => some p.1
        | none => searchCode rest
      | none =>
        match takeUntilFence t0 with
        | some p => some p.1
        | none => searchCode rest
    else searchCode rest

/-- `extract_code` from `code_utils.py`. -/
def extract_code (text : List Char) : List Char :=
  match searchCode text with
  | some body => stripPy body
  | none => stripPy text

/-! ### `app/agent/css_utils.py` -/

/-- The `css_variables` baseline block of `add_professional_css_patterns`,
byte for byte (including the lines holding only two spaces). -/
def cssVariablesStr : String :=
  "\n:root \x7b\n" ++
  "  /* Color Palette */\n" ++
  "  --primary-color: #4f46e5;\n" ++
  "  --primary-hover: #4338ca;\n" ++
  "  --secondary-color: #06b6d4;\n" ++
  "  --secondary-hover: #0891b2;\n" ++
  "  --accent-color: #f59e0b;\n" ++
  "  --success-color: #10b981;\n" ++
  "  --error-color: #ef4444;\n" ++
  "  --warning-color: #f59e0b;\n" ++
  "  \n" ++
  "  /* Gradients */\n" ++
  "  --primary-gradient: linear-gradient(135deg, var(--primary-color) 0%, var(--secondary-color) 100%);\n" ++
  "  --hero-gradient: linear-gradient(135deg, #667eea 0%, #764ba2 100%);\n" ++
  "  --card-gradient: linear-gradient(145deg, #ffffff 0%, #f8fafc 100%);\n" ++
  "  \n" ++
  "  /* Spacing */\n" ++
  "  --space-xs: 0.25rem;\n" ++
  "  --space-sm: 0.5rem;\n" ++
  "  --space-md: 1rem;\n" ++
  "  --space-lg: 1.5rem;\n" ++
  "  --space-xl: 2rem;\n" ++
  "  --space-2xl: 3rem;\n" ++
  "  \n" ++
  "  /* Typography */\n" ++
  "  --font-size-xs: 0.75rem;\n" ++
  "  --font-size-sm: 0.875rem;\n" ++
  "  --font-size-base: 1rem;\n" ++
  "  --font-size-lg: 1.125rem;\n" ++
  "  --font-size-xl: 1.25rem;\n" ++
  "  --font-size-2xl: 1.5rem;\n" ++
  "  --font-size-3xl: 1.875rem;\n" ++
  "  --font-size-4xl: 2.25rem;\n" ++
  "  \n" ++
  "  /* Shadows */\n" ++
  "  --shadow-sm: 0 1px 2px 0 rgba(0, 0, 0, 0.05);\n" ++
  "  --shadow-md: 0 4px 6px -1px rgba(0, 0, 0, 0.1), 0 2px 4px -1px rgba(0, 0, 0, 0.06);\n" ++
  "  --shadow-lg: 0 10px 15px -3px rgba(0, 0, 0, 0.1), 0 4px 6px -2px rgba(0, 0, 0, 0.05);\n" ++
  "  --shadow-xl: 0 20px 25px -5px rgba(0, 0, 0, 0.1), 0 10px 10px -5px rgba(0, 0, 0, 0.04);\n" ++
  "  \n" ++
  "  /* Border Radius */\n" ++
  "  --radius-sm: 0.375rem;\n" ++
  "  --radius-md: 0.5rem;\n" ++
  "  --radius-lg: 0.75rem;\n" ++
  "  --radius-xl: 1rem;\n" ++
  "  --radius-full: 9999px;\n" ++
  "  \n" ++
  "  /* Transitions */\n" ++
  "  --transition-fast: 0.15s ease-in-out;\n" ++
  "  --transition-base: 0.3s ease-in-out;\n" ++
  "  --transition-slow: 0.5s ease-in-out;\n" ++
  "  \n" ++
  "  /* Glassmorphism */\n" ++
  "  --glass-bg: rgba(255, 255, 255, 0.1);\n" ++
  "  --glass-border: rgba(255, 255, 255, 0.2);\n" ++
  "  --glass-blur: blur(20px);\n" ++
  "\x7d\n" ++
  "\n" ++
  "/* Professional animations */\n" ++
  "@keyframes fadeInUp \x7b\n" ++
  "  from \x7b\n" ++
  "    opacity: 0;\n" ++
  "    transform: translateY(30px);\n" ++
  "  \x7d\n" ++
  "  to \x7b\n" ++
  "    opacity: 1;\n" ++
  "    transform: translateY(0);\n" ++
  "  \x7d\n" ++
  "\x7d\n" ++
  "\n" ++
  "@keyframes pulse \x7b\n" ++
  "  0% \x7b\n" ++
  "    transform: scale(1);\n" ++
  "  \x7d\n" ++
  "  50% \x7b\n" ++
  "    transform: scale(1.05);\n" ++
  "  \x7d\n" ++
  "  100% \x7b\n" ++
  "    transform: scale(1);\n" ++
  "  \x7d\n" ++
  "\x7d\n" ++
  "\n" ++
  "/* Professional utility classes */\n" ++
  ".glassmorphism \x7b\n" ++
  "  background: var(--glass-bg);\n" ++
  "  backdrop-filter: var(--glass-blur);\n" ++
  "  -webkit-backdrop-filter: var(--glass-blur);\n" ++
  "  border: 1px solid var(--glass-border);\n" ++
  "  border-radius: var(--radius-lg);\n" ++
  "\x7d\n" ++
  "\n" ++
  ".hover-lift:hover \x7b\n" ++
  "  transform: translateY(-5px);\n" ++
  "  box-shadow: var(--shadow-xl);\n" ++
  "  transition: all var(--transition-base);\n" ++
  "\x7d\n"

def cssVariables : List Char := cssVariablesStr.data

def rootTok : List Char := (":root").data

def nlnl : List Char := [lf, lf]

/-- `add_professional_css_patterns` from `css_utils.py`. -/
def add_professional_css_patterns (css_code : List Char) : List Char :=
  if containsSub rootTok css_code then css_code
  else cssVariables ++ nlnl ++ css_code

/-- The state threaded through the line loop of `clean_css`. -/
structure CssSt where
  inRule : Bool
  inMedia : Bool
  inKeyframes : Bool
  braceCount : Int
  deriving Repr, DecidableEq

def initCssSt : CssSt := ⟨false, false, false, 0⟩

def classEqPat : List Char := ("class=").data

def classNameEqPat : List Char := ("className=").data

def slashStar : List Char := ("/*").data

def twoSp : List Char := [spC, spC]

/-- One iteration of the line loop of `clean_css`: returns the next state
and the line appended to `fixed_lines`. -/
def cssStep (st : CssSt) (line : List Char) : CssSt × List Char :=
  let stripped := stripPy line
  if stripped == [] then (st, [])
  else if stripped == [rbrace] then
    let bc := st.braceCount - 1
    if bc ≤ 0 then (⟨false, false, false, 0⟩, stripped)
    else ({ st with braceCount := bc }, stripped)
  else if stripped.getLast? == some lbrace then
    let s1 := subSemisBrace stripped
    let s2 := subCommaSemiWs s1
    let s3 := subTrailingSemi (rstripBrace s2) ++ [spC, lbrace]
    ({ st with inRule := true, braceCount := st.braceCount + 1 }, s3)
  else if (st.inRule || st.inMedia || st.inKeyframes) && stripped.contains colonC
      && !isPrefixL slashStar stripped then
    let p1 := if stripped.getLast? == some semi then stripped else stripped ++ [semi]
    let p2 := collapseSemis p1
    let p3 := subCommaSemi p2
    let p4 := if isPrefixL twoSp p3 || isPrefixL [tabC] p3 then p3 else twoSp ++ p3
    (st, p4)
  else (st, stripped)

/-- The line loop of `clean_css`, emitting `fixed_lines` in order. -/
def cssLines : CssSt → List (List Char) → List (List Char)
  | _, [] => []
  | st, l :: ls =>
    let p := cssStep st l
    p.2 :: cssLines p.1 ls

/-- The state after the line loop of `clean_css` has processed `lines`. -/
def cssRun (st : CssSt) (lines : List (List Char)) : CssSt :=
  lines.foldl (fun s l => (cssStep s l).1) st

/-- `clean_css` before `add_professional_css_patterns`: the `class=`
substitution, the split into lines, the repair loop and the rejoin. -/
def cssMain (css_code : List Char) : List Char :=
  joinNl (cssLines initCssSt (splitNl (replaceStr classEqPat classNameEqPat css_code)))

/-- `clean_css` from `css_utils.py`. -/
def clean_css (css_code : List Char) : List Char :=
  if css_code == [] then []
  else add_professional_css_patterns (cssMain css_code)

/-! ### Whole-text cleanup of the legacy `clean_css` (`workflow.py`) -/

/-- The final whole-text regex cleanups of the legacy `clean_css` in
`workflow.py`: `;\s*\x7b` → ` \x7b`, then `,\s*;` → `;`, then `;+` → `;`. -/
def finalCleanup (s : List Char) : List Char :=
  collapseSemis (subCommaSemi (subSemiBrace s))

/-- No two adjacent characters `a` then `b` occur in the text. -/
def noAdjPair (a b : Char) : List Char → Bool
  | [] => true
  | [_] => true
  | x :: y :: rest => !(x == a && y == b) && noAdjPair a b (y :: rest)

def noDoubleSemi (s : List Char) : Bool := noAdjPair semi semi s

def noSemiBrace (s : List Char) : Bool := noAdjPair semi lbrace s

/-! ### Generic lemmas about `isPrefixL` and `containsSub` -/

theorem isPrefixL_iff {p s : List Char} : isPrefixL p s = true ↔ ∃ w, s = p ++ w := by
  induction p generalizing s with
  | nil => simp [isPrefixL]
  | cons a as ih =>
    cases s with
    | nil => simp [isPrefixL]
    | cons b bs =>
      simp only [isPrefixL, Bool.and_eq_true, beq_iff_eq, ih]
      constructor
      · rintro ⟨rfl, w, rfl⟩; exact ⟨w, rfl⟩
      · rintro ⟨w, hw⟩
        cases hw
        exact ⟨rfl, w, rfl⟩

theorem isPrefixL_self_append (p w : List Char) : isPrefixL p (p ++ w) = true :=
  isPrefixL_iff.mpr ⟨w, rfl⟩

theorem containsSub_iff {u s : List Char} :
    containsSub u s = true ↔ ∃ p q, s = p ++ u ++ q := by
  induction s with
  | nil =>
    simp only [containsSub, List.isEmpty_iff]
    constructor
    · rintro rfl; exact ⟨[], [], rfl⟩
    · rintro ⟨p, q, hpq⟩
      rcases List.append_eq_nil.mp hpq.symm with ⟨h1, h2⟩
      exact (List.append_eq_nil.mp h1).2
  | cons c rest ih =>
    simp only [containsSub, Bool.or_eq_true, isPrefixL_iff, ih]
    constructor
    · rintro (⟨w, hw⟩ | ⟨p, q, hpq⟩)
      · exact ⟨[], w, by simp [hw]⟩
      · exact ⟨c :: p, q, by simp [hpq]⟩
    · rintro ⟨p, q, hpq⟩
      cases p with
      | nil => exact Or.inl ⟨q, by simpa using hpq⟩
      | cons x xs =>
        right
        refine ⟨xs, q, ?_⟩
        rw [List.cons_append, List.cons_append] at hpq
        exact (List.cons_eq_cons.mp hpq).2

theorem containsSub_cons {u t : List Char} (c : Char) (h : containsSub u t = true) :
    containsSub u (c :: t) = true := by
  simp [containsSub, h]

theorem containsSub_append_r {u t : List Char} (s : List Char)
    (h : containsSub u t = true) : containsSub u (s ++ t) = true := by
  induction s with
  | nil => simpa using h
  | cons c cs ih => exact containsSub_cons c ih

theorem containsSub_append_l {u s : List Char} (t : List Char)
    (h : containsSub u s = true) : containsSub u (s ++ t) = true := by
  rcases containsSub_iff.mp h with ⟨p, q, rfl⟩
  exact containsSub_iff.mpr ⟨p, q ++ t, by simp⟩

theorem containsSub_of_prefix {u s : List Char} (h : isPrefixL u s = true) :
    containsSub u s = true := by
  rcases isPrefixL_iff.mp h with ⟨w, rfl⟩
  exact containsSub_iff.mpr ⟨[], w, by simp⟩

theorem containsSub_reverse {u s : List Char} (h : containsSub u s = true) :
    containsSub u.reverse s.reverse = true := by
  rcases containsSub_iff.mp h with ⟨p, q, rfl⟩
  exact containsSub_iff.mpr ⟨q.reverse, p.reverse, by simp⟩

theorem containsSub_nil_false {u : List Char} (hu : u ≠ []) :
    containsSub u [] = false := by
  cases u with
  | nil => exact absurd rfl hu
  | cons a as => simp [containsSub]

theorem containsSub_cons_elim {u : List Char} {c : Char} {rest : List Char}
    (h : containsSub u (c :: rest) = true) :
    isPrefixL u (c :: rest) = true ∨ containsSub u rest = true := by
  simpa [containsSub, Bool.or_eq_true] using h

/-- Occurrences of a pattern none of whose characters satisfies `p`
survive `dropWhile p`. -/
theorem containsSub_dropWhile {u : List Char} (p : Char → Bool)
    (hu : ∀ a ∈ u, p a = false) (hune : u ≠ []) :
    ∀ {s : List Char}, containsSub u s = true → containsSub u (s.dropWhile p) = true := by
  intro s hs
  induction s with
  | nil => simpa using hs
  | cons c rest ih =>
    by_cases hc : p c = true
    · rw [List.dropWhile_cons_of_pos hc]
      rcases containsSub_cons_elim hs with hpre | hrest
      · cases u with
        | nil => exact absurd rfl hune
        | cons a as =>
          have hca : c = a := by
            rcases isPrefixL_iff.mp hpre with ⟨w, hw⟩
            rw [List.cons_append] at hw
            exact (List.cons_eq_cons.mp hw).1
          rw [hca] at hc
          exact absurd hc (by simp [hu a (List.mem_cons_self a as)])
      · exact ih hrest
    · rw [List.dropWhile_cons_of_neg hc]
      exact hs

/-! ### Lemmas about the scan-substitute engine `subGo` -/

theorem subGo_skip (m : List Char → Option (Nat × List Char)) :
    ∀ (s : List Char) (k : Nat), subGo m s k = subGo m (s.drop k) 0 := by
  intro s
  induction s with
  | nil => intro k; simp [subGo]
  | cons c rest ih =>
    intro k
    cases k with
    | zero => rfl
    | succ k => simpa [subGo] using ih k

theorem subGo_match {m : List Char → Option (Nat × List Char)} {c : Char}
    {rest : List Char} {n : Nat} {rep : List Char}
    (h : m (c :: rest) = some (n, rep)) (hn : 1 ≤ n) :
    subGo m (c :: rest) 0 = rep ++ subGo m ((c :: rest).drop n) 0 := by
  obtain ⟨k, rfl⟩ : ∃ k, n = k + 1 := ⟨n - 1, by omega⟩
  simp only [subGo, h, Nat.add_sub_cancel, List.drop_succ_cons]
  rw [subGo_skip]

theorem subGo_nomatch {m : List Char → Option (Nat × List Char)} {c : Char}
    {rest : List Char} (h : m (c :: rest) = none) :
    subGo m (c :: rest) 0 = c :: subGo m rest 0 := by
  simp [subGo, h]

/-- Characters on which no match can start are copied verbatim by the
scanner. -/
theorem subGo_verbatim {m : List Char → Option (Nat × List Char)} {bad : Char → Bool}
    (hnone : ∀ c rest, bad c = false → m (c :: rest) = none) :
    ∀ (v w : List Char), (∀ a ∈ v, bad a = false) →
      subGo m (v ++ w) 0 = v ++ subGo m w 0 := by
  intro v
  induction v with
  | nil => intro w _; rfl
  | cons a v' ih =>
    intro w hv
    rw [List.cons_append,
      subGo_nomatch (hnone a (v' ++ w) (hv a (List.mem_cons_self a v'))),
      ih w (fun x hx => hv x (List.mem_cons_of_mem a hx))]
    rfl

/-- A pattern none of whose characters can belong to a matched span (or
start a match) survives the scan-substitution. -/
theorem subGo_preserves {m : List Char → Option (Nat × List Char)} {bad : Char → Bool}
    (hnone : ∀ c rest, bad c = false → m (c :: rest) = none)
    (hspan : ∀ s n rep, m s = some (n, rep) →
      1 ≤ n ∧ n ≤ s.length ∧ ∀ a ∈ s.take n, bad a = true)
    {u : List Char} (hu : ∀ a ∈ u, bad a = false) (hune : u ≠ []) :
    ∀ (s : List Char), containsSub u s = true → containsSub u (subGo m s 0) = true := by
  suffices H : ∀ (L : Nat) (s : List Char), s.length ≤ L →
      containsSub u s = true → containsSub u (subGo m s 0) = true by
    exact fun s => H s.length s le_rfl
  intro L
  induction L with
  | zero =>
    intro s hl hs
    cases s with
    | nil => simpa using hs
    | cons c rest => simp at hl
  | succ L ih =>
  intro s hl
  cases s with
  | nil => intro hs; simpa using hs
  | cons c rest =>
    intro hs
    match hm : m (c :: rest) with
    | some (n, rep) =>
      obtain ⟨hn1, hn2, hbad⟩ := hspan _ _ _ hm
      rw [subGo_match hm hn1]
      rcases containsSub_iff.mp hs with ⟨p, q, hpq⟩
      by_cases hnp : n ≤ p.length
      · refine containsSub_append_r rep ?_
        have hdrop : (c :: rest).drop n = p.drop n ++ u ++ q := by
          rw [hpq, List.append_assoc, List.drop_append_eq_append_drop,
            Nat.sub_eq_zero_of_le hnp, List.drop_zero, List.append_assoc]
        have hcd : containsSub u ((c :: rest).drop n) = true :=
          containsSub_iff.mpr ⟨p.drop n, q, hdrop⟩
        have hlen : ((c :: rest).drop n).length ≤ L := by
          rw [List.length_drop]
          have hl2 : rest.length + 1 ≤ L + 1 := hl
          show rest.length + 1 - n ≤ L
          omega
        exact ih _ hlen hcd
      · exfalso
        cases u with
        | nil => exact hune rfl
        | cons uh ut =>
          have hmem : uh ∈ (c :: rest).take n := by
            rw [hpq, List.append_assoc, List.take_append_eq_append_take]
            refine List.mem_append_right _ ?_
            obtain ⟨k, hk⟩ : ∃ k, n - p.length = k + 1 := ⟨n - p.length - 1, by omega⟩
            rw [List.cons_append, hk, List.take_succ_cons]
            exact List.mem_cons_self _ _
          have := hbad uh hmem
          rw [hu uh (List.mem_cons_self uh ut)] at this
          exact Bool.false_ne_true this
    | none =>
      rw [subGo_nomatch hm]
      rcases containsSub_cons_elim hs with hpre | hrest
      · cases u with
        | nil => exact absurd rfl hune
        | cons uh ut =>
          rcases isPrefixL_iff.mp hpre with ⟨w, hw⟩
          rw [List.cons_append] at hw
          obtain ⟨huh, hrw⟩ := List.cons_eq_cons.mp hw
          have hver : subGo m rest 0 = ut ++ subGo m w 0 := by
            rw [hrw]
            exact subGo_verbatim hnone ut w
              (fun x hx => hu x (List.mem_cons_of_mem uh hx))
          refine containsSub_of_prefix ?_
          rw [hver, huh, ← List.cons_append]
          exact isPrefixL_self_append _ _
      · have hlen : rest.length ≤ L := by
          have hl2 : rest.length + 1 ≤ L + 1 := hl
          omega
        exact containsSub_cons c (ih _ hlen hrest)

/-! ### Facts about the individual matchers -/

theorem contains_of_mem {l : List Char} {a : Char} (h : a ∈ l) : l.contains a = true := by
  simpa [List.contains] using List.elem_iff.mpr h

theorem take_len_add (l₁ l₂ : List Char) (k : Nat) :
    (l₁ ++ l₂).take (l₁.length + k) = l₁ ++ l₂.take k := by
  rw [List.take_append_eq_append_take]
  have h1 : l₁.take (l₁.length + k) = l₁ := List.take_of_length_le (by omega)
  have h2 : l₁.length + k - l₁.length = k := by omega
  rw [h1, h2]

theorem mLit_none {pat rep : List Char} {c : Char} {rest : List Char}
    (h : pat.contains c = false) : mLit pat rep (c :: rest) = none := by
  unfold mLit
  split_ifs with hc
  · exfalso
    rw [Bool.and_eq_true] at hc
    obtain ⟨hne, hpre⟩ := hc
    rcases isPrefixL_iff.mp hpre with ⟨w, hw⟩
    cases pat with
    | nil => simp at hne
    | cons p0 pt =>
      rw [List.cons_append] at hw
      obtain ⟨h1, _⟩ := List.cons_eq_cons.mp hw
      rw [h1, contains_of_mem (List.mem_cons_self p0 pt)] at h
      exact Bool.noConfusion h
  · rfl

theorem mLit_span (pat rep : List Char) :
    ∀ (s : List Char) (n : Nat) (r : List Char), mLit pat rep s = some (n, r) →
      1 ≤ n ∧ n ≤ s.length ∧ ∀ a ∈ s.take n, pat.contains a = true := by
  intro s n r h
  unfold mLit at h
  split_ifs at h with hc
  · rw [Bool.and_eq_true] at hc
    obtain ⟨hne, hpre⟩ := hc
    rcases isPrefixL_iff.mp hpre with ⟨w, rfl⟩
    obtain ⟨h1, _⟩ := Prod.mk.injEq _ _ _ _ ▸ Option.some.inj h
    subst h1
    refine ⟨?_, ?_, ?_⟩
    · cases pat with
      | nil => simp at hne
      | cons p0 pt => simp
    · simp
    · intro a ha
      rw [List.take_left] at ha
      exact contains_of_mem ha

theorem mSemisBrace_none {c : Char} {rest : List Char} (h : (c == semi) = false) :
    mSemisBrace (c :: rest) = none := by
  simp [mSemisBrace, h]

theorem mSemisBrace_span :
    ∀ (s : List Char) (n : Nat) (r : List Char), mSemisBrace s = some (n, r) →
      1 ≤ n ∧ n ≤ s.length ∧
        ∀ a ∈ s.take n, (a == semi || isPyWs a || a == lbrace) = true := by
  intro s n r h
  cases s with
  | nil => simp [mSemisBrace] at h
  | cons c rest =>
    unfold mSemisBrace at h
    by_cases hc : (c == semi) = true
    case neg => simp [hc] at h
    simp only [hc, if_true] at h
    cases hD : ((c :: rest).dropWhile (· == semi)).dropWhile isPyWs with
    | nil => rw [hD] at h; simp at h
    | cons d w2 =>
      rw [hD] at h
      by_cases hd : (d == lbrace) = true
      case neg => simp [hd] at h
      simp only [hd, if_true, Option.some.injEq, Prod.mk.injEq] at h
      obtain ⟨hn, _⟩ := h
      subst hn
      have hsplit1 : (c :: rest) =
          (c :: rest).takeWhile (· == semi) ++ (c :: rest).dropWhile (· == semi) :=
        (List.takeWhile_append_dropWhile _ _).symm
      have hsplit2 : (c :: rest).dropWhile (· == semi) =
          ((c :: rest).dropWhile (· == semi)).takeWhile isPyWs ++ (d :: w2) := by
        rw [← hD]
        exact (List.takeWhile_append_dropWhile _ _).symm
      set T1 := (c :: rest).takeWhile (· == semi) with hT1def
      set T2 := ((c :: rest).dropWhile (· == semi)).takeWhile isPyWs with hT2def
      have hs : (c :: rest) = ((T1 ++ T2) ++ [d]) ++ w2 := by
        rw [List.append_assoc, List.append_assoc]
        rw [(by simp : [d] ++ w2 = d :: w2), ← hsplit2]
        exact hsplit1
      have hlen2 : (c :: rest).length = ((T1 ++ T2) ++ [d]).length + w2.length := by
        rw [hs]
        simp only [List.length_append, List.length_cons, List.length_nil]
        try omega
      have hPpos : 1 ≤ ((T1 ++ T2) ++ [d]).length := by
        simp only [List.length_append, List.length_cons, List.length_nil]
        try omega
      have hP : (c :: rest).length - (d :: w2).length + 1 = ((T1 ++ T2) ++ [d]).length := by
        simp only [List.length_append, List.length_cons, List.length_nil] at hlen2 ⊢
        omega
      refine ⟨by omega, by omega, ?_⟩
      intro a ha
      rw [hP] at ha
      conv at ha => rw [hs]
      rw [List.take_left] at ha
      rcases List.mem_append.mp ha with h1 | h2
      · rcases List.mem_append.mp h1 with hA | hB
        · rw [List.mem_takeWhile_imp hA]
          simp
        · rw [List.mem_takeWhile_imp hB]
          simp
      · rcases List.mem_singleton.mp h2 with rfl
        rw [hd]
        simp

theorem mCommaSemiWs_none {c : Char} {rest : List Char} (h : (c == commaC) = false) :
    mCommaSemiWs (c :: rest) = none := by
  simp [mCommaSemiWs, h]

theorem mCommaSemiWs_span :
    ∀ (s : List Char) (n : Nat) (r : List Char), mCommaSemiWs s = some (n, r) →
      1 ≤ n ∧ n ≤ s.length ∧
        ∀ a ∈ s.take n, (a == commaC || isPyWs a || a == semi) = true := by
  intro s n r h
  cases s with
  | nil => simp [mCommaSemiWs] at h
  | cons c rest =>
    unfold mCommaSemiWs at h
    by_cases hc : (c == commaC) = true
    case neg => simp [hc] at h
    simp only [hc, if_true] at h
    cases hD : rest.dropWhile isPyWs with
    | nil => rw [hD] at h; simp at h
    | cons d w2 =>
      rw [hD] at h
      by_cases hd : (d == semi) = true
      case neg => simp [hd] at h
      simp only [hd, if_true, Option.some.injEq, Prod.mk.injEq] at h
      obtain ⟨hn, _⟩ := h
      subst hn
      have hsplit1 : rest = rest.takeWhile isPyWs ++ (d :: w2) := by
        rw [← hD]
        exact (List.takeWhile_append_dropWhile _ _).symm
      have hsplit2 : w2 = w2.takeWhile isPyWs ++ w2.dropWhile isPyWs :=
        (List.takeWhile_append_dropWhile _ _).symm
      set W1 := rest.takeWhile isPyWs with hW1def
      set W2 := w2.takeWhile isPyWs with hW2def
      set B := w2.dropWhile isPyWs with hBdef
      have hs : (c :: rest) = (c :: (W1 ++ (d :: W2))) ++ B := by
        rw [List.cons_append]
        congr 1
        rw [hsplit1, hsplit2]
        simp
      have hlen2 : (c :: rest).length = (c :: (W1 ++ (d :: W2))).length + B.length := by
        rw [hs]
        simp only [List.length_append, List.length_cons, List.length_nil]
        try omega
      have hPpos : 1 ≤ (c :: (W1 ++ (d :: W2))).length := by
        simp only [List.length_cons]
        try omega
      have hP : (c :: rest).length - B.length = (c :: (W1 ++ (d :: W2))).length := by
        omega
      refine ⟨by omega, by omega, ?_⟩
      intro a ha
      rw [hP] at ha
      conv at ha => rw [hs]
      rw [List.take_left] at ha
      rcases List.mem_cons.mp ha with rfl | ha2
      · rw [hc]; simp
      · rcases List.mem_append.mp ha2 with hA | hB2
        · rw [List.mem_takeWhile_imp hA]; simp
        · rcases List.mem_cons.mp hB2 with rfl | hA2
          · rw [hd]; simp
          · rw [List.mem_takeWhile_imp hA2]; simp

theorem mCommaSemi_none {c : Char} {rest : List Char} (h : (c == commaC) = false) :
    mCommaSemi (c :: rest) = none := by
  simp [mCommaSemi, h]

theorem mCommaSemi_span :
    ∀ (s : List Char) (n : Nat) (r : List Char), mCommaSemi s = some (n, r) →
      1 ≤ n ∧ n ≤ s.length ∧
        ∀ a ∈ s.take n, (a == commaC || isPyWs a || a == semi) = true := by
  intro s n r h
  cases s with
  | nil => simp [mCommaSemi] at h
  | cons c rest =>
    unfold mCommaSemi at h
    by_cases hc : (c == commaC) = true
    case neg => simp [hc] at h
    simp only [hc, if_true] at h
    cases hD : rest.dropWhile isPyWs with
    | nil => rw [hD] at h; simp at h
    | cons d w2 =>
      rw [hD] at h
      by_cases hd : (d == semi) = true
      case neg => simp [hd] at h
      simp only [hd, if_true, Option.some.injEq, Prod.mk.injEq] at h
      obtain ⟨hn, _⟩ := h
      subst hn
      have hsplit1 : rest = rest.takeWhile isPyWs ++ (d :: w2) := by
        rw [← hD]
        exact (List.takeWhile_append_dropWhile _ _).symm
      set W1 := rest.takeWhile isPyWs with hW1def
      have hs : (c :: rest) = (c :: (W1 ++ [d])) ++ w2 := by
        rw [List.cons_append]
        congr 1
        rw [hsplit1]
        simp
      have hlen2 : (c :: rest).length = (c :: (W1 ++ [d])).length + w2.length := by
        rw [hs]
        simp only [List.length_append, List.length_cons, List.length_nil]
        try omega
      have hPpos : 1 ≤ (c :: (W1 ++ [d])).length := by
        simp only [List.length_cons]
        try omega
      have hP : (c :: rest).length - w2.length = (c :: (W1 ++ [d])).length := by
        omega
      refine ⟨by omega, by omega, ?_⟩
      intro a ha
      rw [hP] at ha
      conv at ha => rw [hs]
      rw [List.take_left] at ha
      rcases List.mem_cons.mp ha with rfl | ha2
      · rw [hc]; simp
      · rcases List.mem_append.mp ha2 with hA | hB2
        · rw [List.mem_takeWhile_imp hA]; simp
        · rcases List.mem_singleton.mp hB2 with rfl
          rw [hd]; simp

theorem mSemiBrace_none {c : Char} {rest : List Char} (h : (c == semi) = false) :
    mSemiBrace (c :: rest) = none := by
  simp [mSemiBrace, h]

theorem mSemiBrace_span :
    ∀ (s : List Char) (n : Nat) (r : List Char), mSemiBrace s = some (n, r) →
      1 ≤ n ∧ n ≤ s.length ∧
        ∀ a ∈ s.take n, (a == semi || isPyWs a || a == lbrace) = true := by
  intro s n r h
  cases s with
  | nil => simp [mSemiBrace] at h
  | cons c rest =>
    unfold mSemiBrace at h
    by_cases hc : (c == semi) = true
    case neg => simp [hc] at h
    simp only [hc, if_true] at h
    cases hD : rest.dropWhile isPyWs with
    | nil => rw [hD] at h; simp at h
    | cons d w2 =>
      rw [hD] at h
      by_cases hd : (d == lbrace) = true
      case neg => simp [hd] at h
      simp only [hd, if_true, Option.some.injEq, Prod.mk.injEq] at h
      obtain ⟨hn, _⟩ := h
      subst hn
      have hsplit1 : rest = rest.takeWhile isPyWs ++ (d :: w2) := by
        rw [← hD]
        exact (List.takeWhile_append_dropWhile _ _).symm
      set W1 := rest.takeWhile isPyWs with hW1def
      have hs : (c :: rest) = (c :: (W1 ++ [d])) ++ w2 := by
        rw [List.cons_append]
        congr 1
        rw [hsplit1]
        simp
      have hlen2 : (c :: rest).length = (c :: (W1 ++ [d])).length + w2.length := by
        rw [hs]
        simp only [List.length_append, List.length_cons, List.length_nil]
        try omega
      have hPpos : 1 ≤ (c :: (W1 ++ [d])).length := by
        simp only [List.length_cons]
        try omega
      have hP : (c :: rest).length - (d :: w2).length + 1 = (c :: (W1 ++ [d])).length := by
        simp only [List.length_append, List.length_cons, List.length_nil] at hlen2 ⊢
        omega
      refine ⟨by omega, by omega, ?_⟩
      intro a ha
      rw [hP] at ha
      conv at ha => rw [hs]
      rw [List.take_left] at ha
      rcases List.mem_cons.mp ha with rfl | ha2
      · rw [hc]; simp
      · rcases List.mem_append.mp ha2 with hA | hB2
        · rw [List.mem_takeWhile_imp hA]; simp
        · rcases List.mem_singleton.mp hB2 with rfl
          rw [hd]; simp

/-! ### Preservation of `:root`-like patterns by the repair transforms -/

theorem replaceStr_preserves {pat rep u : List Char}
    (hu : ∀ a ∈ u, pat.contains a = false) (hune : u ≠ [])
    {s : List Char} (h : containsSub u s = true) :
    containsSub u (replaceStr pat rep s) = true :=
  subGo_preserves (fun c _ hc => mLit_none hc) (mLit_span pat rep) hu hune s h

theorem subSemisBrace_preserves {u : List Char}
    (hu : ∀ a ∈ u, (a == semi || isPyWs a || a == lbrace) = false) (hune : u ≠ [])
    {s : List Char} (h : containsSub u s = true) :
    containsSub u (subSemisBrace s) = true := by
  refine subGo_preserves ?_ mSemisBrace_span hu hune s h
  intro c rest hc
  cases hcs : (c == semi) with
  | false => exact mSemisBrace_none hcs
  | true => rw [hcs] at hc; simp at hc

theorem subCommaSemiWs_preserves {u : List Char}
    (hu : ∀ a ∈ u, (a == commaC || isPyWs a || a == semi) = false) (hune : u ≠ [])
    {s : List Char} (h : containsSub u s = true) :
    containsSub u (subCommaSemiWs s) = true := by
  refine subGo_preserves ?_ mCommaSemiWs_span hu hune s h
  intro c rest hc
  cases hcs : (c == commaC) with
  | false => exact mCommaSemiWs_none hcs
  | true => rw [hcs] at hc; simp at hc

theorem subCommaSemi_preserves {u : List Char}
    (hu : ∀ a ∈ u, (a == commaC || isPyWs a || a == semi) = false) (hune : u ≠ [])
    {s : List Char} (h : containsSub u s = true) :
    containsSub u (subCommaSemi s) = true := by
  refine subGo_preserves ?_ mCommaSemi_span hu hune s h
  intro c rest hc
  cases hcs : (c == commaC) with
  | false => exact mCommaSemi_none hcs
  | true => rw [hcs] at hc; simp at hc

theorem collapseSemisGo_verbatim {v : List Char} (hv : ∀ a ∈ v, (a == semi) = false) :
    ∀ (w : List Char) (b : Bool), v ≠ [] →
      collapseSemisGo b (v ++ w) = v ++ collapseSemisGo false w := by
  induction v with
  | nil => intro w b hvne; exact absurd rfl hvne
  | cons a v' ih =>
    intro w b _
    have ha : (a == semi) = false := hv a (List.mem_cons_self a v')
    rw [List.cons_append]
    simp only [collapseSemisGo, ha, Bool.false_eq_true, if_false]
    cases hv' : v' with
    | nil => simp
    | cons x xs =>
      rw [← hv', ih (fun y hy => hv y (List.mem_cons_of_mem _ hy)) w false (by rw [hv']; simp)]
      rfl

theorem collapseSemisGo_preserves {u : List Char} (hu : ∀ a ∈ u, (a == semi) = false)
    (hune : u ≠ []) :
    ∀ (s : List Char) (b : Bool), containsSub u s = true →
      containsSub u (collapseSemisGo b s) = true := by
  intro s
  induction s with
  | nil => intro b hs; simpa using hs
  | cons c rest ih =>
    intro b hs
    by_cases hc : (c == semi) = true
    · rcases containsSub_cons_elim hs with hpre | hrest
      · exfalso
        cases u with
        | nil => exact hune rfl
        | cons uh ut =>
          rcases isPrefixL_iff.mp hpre with ⟨w, hw⟩
          rw [List.cons_append] at hw
          obtain ⟨h1, _⟩ := List.cons_eq_cons.mp hw
          have h2 := hu uh (List.mem_cons_self uh ut)
          rw [h1] at hc
          rw [h2] at hc
          exact Bool.noConfusion hc
      · have h3 := ih true hrest
        simp only [collapseSemisGo, hc, if_true]
        cases b with
        | true => simpa using h3
        | false => simpa using containsSub_cons semi h3
    · have hc2 : (c == semi) = false := by
        cases hx : (c == semi) with
        | false => rfl
        | true => exact absurd hx hc
      simp only [collapseSemisGo, hc2, Bool.false_eq_true, if_false]
      rcases containsSub_cons_elim hs with hpre | hrest
      · cases u with
        | nil => exact absurd rfl hune
        | cons uh ut =>
          rcases isPrefixL_iff.mp hpre with ⟨w, hw⟩
          rw [List.cons_append] at hw
          obtain ⟨h1, hrw⟩ := List.cons_eq_cons.mp hw
          cases ut with
          | nil =>
            refine containsSub_of_prefix ?_
            simp [isPrefixL, h1]
          | cons x xs =>
            have hver : collapseSemisGo false rest = (x :: xs) ++ collapseSemisGo false w := by
              rw [hrw]
              exact collapseSemisGo_verbatim
                (fun y hy => hu y (List.mem_cons_of_mem _ hy)) w false (by simp)
            refine containsSub_of_prefix ?_
            rw [hver, h1, ← List.cons_append]
            exact isPrefixL_self_append _ _
      · exact containsSub_cons c (ih false hrest)

theorem collapseSemis_preserves {u : List Char} (hu : ∀ a ∈ u, (a == semi) = false)
    (hune : u ≠ []) {s : List Char} (h : containsSub u s = true) :
    containsSub u (collapseSemis s) = true :=
  collapseSemisGo_preserves hu hune s false h

theorem stripPy_preserves {u : List Char} (hu : ∀ a ∈ u, isPyWs a = false)
    (hune : u ≠ []) {s : List Char} (h : containsSub u s = true) :
    containsSub u (stripPy s) = true := by
  unfold stripPy
  have h1 := containsSub_dropWhile isPyWs hu hune h
  have h2 := containsSub_reverse h1
  have hune2 : u.reverse ≠ [] := by simpa using hune
  have h3 := containsSub_dropWhile isPyWs
    (fun a ha => hu a (List.mem_reverse.mp ha)) hune2 h2
  have h4 := containsSub_reverse h3
  simpa using h4

theorem rstripBrace_preserves {u : List Char} (hu : ∀ a ∈ u, (a == lbrace) = false)
    (hune : u ≠ []) {s : List Char} (h : containsSub u s = true) :
    containsSub u (rstripBrace s) = true := by
  unfold rstripBrace
  have h2 := containsSub_reverse h
  have hune2 : u.reverse ≠ [] := by simpa using hune
  have h3 := containsSub_dropWhile (· == lbrace)
    (fun a ha => hu a (List.mem_reverse.mp ha)) hune2 h2
  have h4 := containsSub_reverse h3
  simpa using h4

theorem subTrailingSemi_preserves {u : List Char}
    (huw : ∀ a ∈ u, isPyWs a = false) (hus : ∀ a ∈ u, (a == semi) = false)
    (hune : u ≠ []) {s : List Char} (h : containsSub u s = true) :
    containsSub u (subTrailingSemi s) = true := by
  unfold subTrailingSemi
  cases hr : s.reverse.dropWhile isPyWs with
  | nil => exact h
  | cons c r2 =>
    by_cases hc : (c == semi) = true
    · simp only [hc, if_true]
      have h2 := containsSub_reverse h
      have hune2 : u.reverse ≠ [] := by simpa using hune
      have h3 := containsSub_dropWhile isPyWs
        (fun a ha => huw a (List.mem_reverse.mp ha)) hune2 h2
      rw [hr] at h3
      rcases containsSub_cons_elim h3 with hpre | hrest
      · exfalso
        cases hu2 : u.reverse with
        | nil => exact hune2 hu2
        | cons x xs =>
          rw [hu2] at hpre
          rcases isPrefixL_iff.mp hpre with ⟨w, hw⟩
          rw [List.cons_append] at hw
          obtain ⟨h1, _⟩ := List.cons_eq_cons.mp hw
          have hxmem : x ∈ u := by
            have : x ∈ u.reverse := by rw [hu2]; exact List.mem_cons_self x xs
            exact List.mem_reverse.mp this
          have h5 := hus x hxmem
          rw [h1] at hc
          rw [h5] at hc
          exact Bool.noConfusion hc
      · have h6 := containsSub_reverse hrest
        simpa using h6
    · have hc2 : (c == semi) = false := by
        cases hx : (c == semi) with
        | false => rfl
        | true => exact absurd hx hc
      simp only [hc2, Bool.false_eq_true, if_false]
      exact h

/-- Every branch of the line-repair loop preserves an occurrence of
`:root` in the line. -/
theorem cssStep_preserves (st : CssSt) (l : List Char)
    (h : containsSub rootTok l = true) :
    containsSub rootTok (cssStep st l).2 = true := by
  have hune : rootTok ≠ [] := by decide
  have hws : ∀ a ∈ rootTok, isPyWs a = false := by decide
  have hsb : ∀ a ∈ rootTok, (a == semi || isPyWs a || a == lbrace) = false := by decide
  have hcw : ∀ a ∈ rootTok, (a == commaC || isPyWs a || a == semi) = false := by decide
  have hsm : ∀ a ∈ rootTok, (a == semi) = false := by decide
  have hlb : ∀ a ∈ rootTok, (a == lbrace) = false := by decide
  have hstr : containsSub rootTok (stripPy l) = true := stripPy_preserves hws hune h
  simp only [cssStep]
  split_ifs with h1 h2 h3 h4 h5 h6 h7
  · exfalso
    rw [beq_iff_eq] at h1
    rw [h1, containsSub_nil_false hune] at hstr
    exact Bool.noConfusion hstr
  · exact hstr
  · exact hstr
  · exact containsSub_append_l _
      (subTrailingSemi_preserves hws hsm hune
        (rstripBrace_preserves hlb hune
          (subCommaSemiWs_preserves hcw hune
            (subSemisBrace_preserves hsb hune hstr))))
  · exact subCommaSemi_preserves hcw hune
      (collapseSemis_preserves hsm hune hstr)
  · exact containsSub_append_r _
      (subCommaSemi_preserves hcw hune
        (collapseSemis_preserves hsm hune hstr))
  · exact subCommaSemi_preserves hcw hune
      (collapseSemis_preserves hsm hune (containsSub_append_l _ hstr))
  · exact containsSub_append_r _
      (subCommaSemi_preserves hcw hune
        (collapseSemis_preserves hsm hune (containsSub_append_l _ hstr)))
  · exact hstr

theorem splitNl_ne_nil (s : List Char) : splitNl s ≠ [] := by
  cases s with
  | nil => simp [splitNl]
  | cons c rest =>
    unfold splitNl
    by_cases hc : (c == lf) = true
    · simp [hc]
    · have hc2 : (c == lf) = false := by
        cases hx : (c == lf) with
        | false => rfl
        | true => exact absurd hx hc
      simp only [hc2, Bool.false_eq_true, if_false]
      cases splitNl rest <;> simp

theorem splitNl_head (s : List Char) :
    ∃ ls, splitNl s = (s.takeWhile (fun a => !(a == lf))) :: ls := by
  induction s with
  | nil => exact ⟨[], rfl⟩
  | cons c rest ih =>
    unfold splitNl
    by_cases hc : (c == lf) = true
    · refine ⟨splitNl rest, ?_⟩
      simp [hc, List.takeWhile_cons]
    · have hc2 : (c == lf) = false := by
        cases hx : (c == lf) with
        | false => rfl
        | true => exact absurd hx hc
      obtain ⟨ls, hls⟩ := ih
      refine ⟨ls, ?_⟩
      simp only [hc2, Bool.false_eq_true, if_false, hls, List.takeWhile_cons, Bool.not_false,
        if_true]

theorem isPrefixL_takeWhile {p : Char → Bool} :
    ∀ {v t : List Char}, isPrefixL v t = true → (∀ a ∈ v, p a = true) →
      isPrefixL v (t.takeWhile p) = true := by
  intro v
  induction v with
  | nil => intro t _ _; rfl
  | cons a v' ih =>
    intro t hpre hv
    rcases isPrefixL_iff.mp hpre with ⟨w, rfl⟩
    rw [List.cons_append, List.takeWhile_cons_of_pos (hv a (List.mem_cons_self a v'))]
    simp only [isPrefixL, beq_self_eq_true, Bool.true_and]
    exact ih (isPrefixL_self_append v' w) (fun x hx => hv x (List.mem_cons_of_mem a hx))

/-- An occurrence of a newline-free pattern lies inside one of the lines
of `split('\n')`. -/
theorem containsSub_splitNl {u : List Char} (hn : ∀ a ∈ u, (a == lf) = false)
    (hune : u ≠ []) :
    ∀ {s : List Char}, containsSub u s = true →
      ∃ l ∈ splitNl s, containsSub u l = true := by
  intro s
  induction s with
  | nil => intro hs; rw [containsSub_nil_false hune] at hs; exact Bool.noConfusion hs
  | cons c rest ih =>
    intro hs
    by_cases hc : (c == lf) = true
    · rcases containsSub_cons_elim hs with hpre | hrest
      · exfalso
        cases u with
        | nil => exact hune rfl
        | cons uh ut =>
          rcases isPrefixL_iff.mp hpre with ⟨w, hw⟩
          rw [List.cons_append] at hw
          obtain ⟨h1, _⟩ := List.cons_eq_cons.mp hw
          have h2 := hn uh (List.mem_cons_self uh ut)
          rw [h1] at hc
          rw [h2] at hc
          exact Bool.noConfusion hc
      · obtain ⟨l, hl, hcl⟩ := ih hrest
        refine ⟨l, ?_, hcl⟩
        unfold splitNl
        simp only [hc, if_true]
        exact List.mem_cons_of_mem _ hl
    · have hc2 : (c == lf) = false := by
        cases hx : (c == lf) with
        | false => rfl
        | true => exact absurd hx hc
      obtain ⟨ls0, hhead⟩ := splitNl_head rest
      have hsplit : splitNl (c :: rest) =
          (c :: rest.takeWhile (fun a => !(a == lf))) :: ls0 := by
        unfold splitNl
        simp only [hc2, Bool.false_eq_true, if_false, hhead]
      rcases containsSub_cons_elim hs with hpre | hrest
      · cases u with
        | nil => exact absurd rfl hune
        | cons uh ut =>
          rcases isPrefixL_iff.mp hpre with ⟨w, hw⟩
          rw [List.cons_append] at hw
          obtain ⟨h1, hrw⟩ := List.cons_eq_cons.mp hw
          refine ⟨c :: rest.takeWhile (fun a => !(a == lf)), by rw [hsplit]; exact List.mem_cons_self _ _, ?_⟩
          refine containsSub_of_prefix ?_
          have hpre2 : isPrefixL ut (rest.takeWhile (fun a => !(a == lf))) = true := by
            refine isPrefixL_takeWhile ?_ ?_
            · rw [hrw]; exact isPrefixL_self_append ut w
            · intro a ha
              rw [hn a (List.mem_cons_of_mem uh ha)]
              rfl
          simp only [isPrefixL, h1, beq_self_eq_true, Bool.true_and]
          exact hpre2
      · obtain ⟨l, hl, hcl⟩ := ih hrest
        rw [hhead] at hl
        rcases List.mem_cons.mp hl with rfl | hl2
        · refine ⟨c :: rest.takeWhile (fun a => !(a == lf)), by rw [hsplit]; exact List.mem_cons_self _ _, ?_⟩
          exact containsSub_cons c hcl
        · exact ⟨l, by rw [hsplit]; exact List.mem_cons_of_mem _ hl2, hcl⟩

theorem containsSub_joinNl {u : List Char} :
    ∀ {L : List (List Char)} {l : List Char}, l ∈ L → containsSub u l = true →
      containsSub u (joinNl L) = true := by
  intro L
  induction L with
  | nil => intro l hl; exact absurd hl (List.not_mem_nil l)
  | cons l0 ls ih =>
    intro l hl hcl
    cases ls with
    | nil =>
      rcases List.mem_cons.mp hl with rfl | hl2
      · exact hcl
      · exact absurd hl2 (List.not_mem_nil l)
    | cons l1 ls' =>
      show containsSub u (l0 ++ lf :: joinNl (l1 :: ls')) = true
      rcases List.mem_cons.mp hl with rfl | hl2
      · exact containsSub_append_l _ hcl
      · exact containsSub_append_r _ (containsSub_cons lf (ih hl2 hcl))

theorem cssLines_preserves :
    ∀ (lines : List (List Char)) (st : CssSt),
      (∃ l ∈ lines, containsSub rootTok l = true) →
      ∃ o ∈ cssLines st lines, containsSub rootTok o = true := by
  intro lines
  induction lines with
  | nil => intro st h; obtain ⟨l, hl, _⟩ := h; exact absurd hl (List.not_mem_nil l)
  | cons l0 ls ih =>
    intro st h
    obtain ⟨l, hl, hcl⟩ := h
    rcases List.mem_cons.mp hl with rfl | hl2
    · exact ⟨(cssStep st l).2, List.mem_cons_self _ _, cssStep_preserves st l hcl⟩
    · obtain ⟨o, ho, hco⟩ := ih (cssStep st l0).1 ⟨l, hl2, hcl⟩
      exact ⟨o, List.mem_cons_of_mem _ ho, hco⟩

/-- An occurrence of `:root` in the input survives the whole line-repair
pass of `clean_css`. -/
theorem cssMain_preserves_root {s : List Char} (h : containsSub rootTok s = true) :
    containsSub rootTok (cssMain s) = true := by
  unfold cssMain
  have hrep : containsSub rootTok (replaceStr classEqPat classNameEqPat s) = true :=
    replaceStr_preserves (by decide) (by decide) h
  have hsplit := containsSub_splitNl (u := rootTok) (by decide) (by decide) hrep
  obtain ⟨o, ho, hco⟩ := cssLines_preserves _ initCssSt hsplit
  exact containsSub_joinNl ho hco

/-! ### The whole-text cleanup of the legacy `clean_css` (claim C5) -/

theorem mSemiBrace_rep (s : List Char) (n : Nat) (r : List Char)
    (h : mSemiBrace s = some (n, r)) : r = [spC, lbrace] := by
  cases s with
  | nil => simp [mSemiBrace] at h
  | cons c rest =>
    unfold mSemiBrace at h
    by_cases hc : (c == semi) = true
    case neg => simp [hc] at h
    simp only [hc, if_true] at h
    cases hD : rest.dropWhile isPyWs with
    | nil => rw [hD] at h; simp at h
    | cons d w2 =>
      rw [hD] at h
      by_cases hd : (d == lbrace) = true
      case neg => simp [hd] at h
      simp only [hd, if_true, Option.some.injEq, Prod.mk.injEq] at h
      exact h.2.symm

theorem mCommaSemi_rep (s : List Char) (n : Nat) (r : List Char)
    (h : mCommaSemi s = some (n, r)) : r = [semi] := by
  cases s with
  | nil => simp [mCommaSemi] at h
  | cons c rest =>
    unfold mCommaSemi at h
    by_cases hc : (c == commaC) = true
    case neg => simp [hc] at h
    simp only [hc, if_true] at h
    cases hD : rest.dropWhile isPyWs with
    | nil => rw [hD] at h; simp at h
    | cons d w2 =>
      rw [hD] at h
      by_cases hd : (d == semi) = true
      case neg => simp [hd] at h
      simp only [hd, if_true, Option.some.injEq, Prod.mk.injEq] at h
      exact h.2.symm

/-- A `,\s*;` match ends with the semicolon: the matched span is some
prefix followed by `;`. -/
theorem mCommaSemi_take (s : List Char) (n : Nat) (r : List Char)
    (h : mCommaSemi s = some (n, r)) : ∃ Q, s.take n = Q ++ [semi] := by
  cases s with
  | nil => simp [mCommaSemi] at h
  | cons c rest =>
    unfold mCommaSemi at h
    by_cases hc : (c == commaC) = true
    case neg => simp [hc] at h
    simp only [hc, if_true] at h
    cases hD : rest.dropWhile isPyWs with
    | nil => rw [hD] at h; simp at h
    | cons d w2 =>
      rw [hD] at h
      by_cases hd : (d == semi) = true
      case neg => simp [hd] at h
      simp only [hd, if_true, Option.some.injEq, Prod.mk.injEq] at h
      obtain ⟨hn, _⟩ := h
      subst hn
      have hsplit1 : rest = rest.takeWhile isPyWs ++ (d :: w2) := by
        rw [← hD]
        exact (List.takeWhile_append_dropWhile _ _).symm
      set W1 := rest.takeWhile isPyWs with hW1def
      have hs : (c :: rest) = (c :: (W1 ++ [d])) ++ w2 := by
        rw [List.cons_append]
        congr 1
        rw [hsplit1]
        simp
      have hlen2 : (c :: rest).length = (c :: (W1 ++ [d])).length + w2.length := by
        rw [hs]
        simp only [List.length_append, List.length_cons, List.length_nil]
        try omega
      have hP : (c :: rest).length - w2.length = (c :: (W1 ++ [d])).length := by
        omega
      refine ⟨c :: W1, ?_⟩
      rw [hP]
      conv_lhs => rw [hs]
      rw [List.take_left]
      have hd2 : d = semi := by
        have := hd
        rwa [beq_iff_eq] at this
      rw [hd2]
      simp

theorem noAdjPair_cons_iff {a b x : Char} {l : List Char} :
    noAdjPair a b (x :: l) = true ↔
      (¬(x = a ∧ l.head? = some b)) ∧ noAdjPair a b l := by
  cases l with
  | nil => simp [noAdjPair]
  | cons y t =>
    show (!(x == a && y == b) && noAdjPair a b (y :: t)) = true ↔ _
    simp only [Bool.and_eq_true, Bool.not_eq_true']
    constructor
    · rintro ⟨h1, h2⟩
      refine ⟨?_, h2⟩
      rintro ⟨rfl, hh⟩
      simp only [List.head?_cons, Option.some.injEq] at hh
      subst hh
      simp at h1
    · rintro ⟨h1, h2⟩
      refine ⟨?_, h2⟩
      by_cases hx : x = a
      · by_cases hy : y = b
        · exact absurd ⟨hx, by simp [hy]⟩ h1
        · simp [hy]
      · simp [hx]

theorem noAdjPair_tail {a b x : Char} {l : List Char}
    (h : noAdjPair a b (x :: l) = true) : noAdjPair a b l = true :=
  (noAdjPair_cons_iff.mp h).2

theorem noAdjPair_append_right {a b : Char} :
    ∀ (P t : List Char), noAdjPair a b (P ++ t) = true → noAdjPair a b t = true := by
  intro P
  induction P with
  | nil => intro t h; exact h
  | cons x P' ih => intro t h; exact ih t (noAdjPair_tail h)

theorem noAdjPair_drop {a b : Char} {s : List Char} (n : Nat)
    (h : noAdjPair a b s = true) : noAdjPair a b (s.drop n) = true := by
  have := List.take_append_drop n s
  rw [← this] at h
  exact noAdjPair_append_right _ _ h

theorem noAdjPair_no_infix {a b : Char} :
    ∀ (P R s : List Char), s = P ++ a :: b :: R → noAdjPair a b s = true → False := by
  intro P
  induction P with
  | nil =>
    intro R s hs h
    subst hs
    simp [noAdjPair] at h
  | cons x P' ih =>
    intro R s hs h
    subst hs
    exact ih R _ rfl (noAdjPair_tail h)

theorem subSemiBrace_head (t : List Char) :
    (subSemiBrace t).head? = some spC ∨ (subSemiBrace t).head? = t.head? := by
  cases t with
  | nil => right; rfl
  | cons c rest =>
    unfold subSemiBrace
    cases hm : mSemiBrace (c :: rest) with
    | none => right; rw [subGo_nomatch hm]; rfl
    | some p =>
      obtain ⟨n, rep⟩ := p
      have hrep := mSemiBrace_rep _ _ _ hm
      obtain ⟨hn1, _, _⟩ := mSemiBrace_span _ _ _ hm
      rw [subGo_match hm hn1, hrep]
      left; rfl

theorem subCommaSemi_head (t : List Char) :
    (subCommaSemi t).head? = some semi ∨ (subCommaSemi t).head? = t.head? := by
  cases t with
  | nil => right; rfl
  | cons c rest =>
    unfold subCommaSemi
    cases hm : mCommaSemi (c :: rest) with
    | none => right; rw [subGo_nomatch hm]; rfl
    | some p =>
      obtain ⟨n, rep⟩ := p
      have hrep := mCommaSemi_rep _ _ _ hm
      obtain ⟨hn1, _, _⟩ := mCommaSemi_span _ _ _ hm
      rw [subGo_match hm hn1, hrep]
      left; rfl

/-- After `re.sub(r";\s*\x7b", " \x7b", s)` no semicolon directly
precedes an opening brace. -/
theorem subSemiBrace_noSemiBrace : ∀ (s : List Char), noSemiBrace (subSemiBrace s) = true := by
  suffices H : ∀ (L : Nat) (s : List Char), s.length ≤ L → noSemiBrace (subSemiBrace s) = true by
    exact fun s => H s.length s le_rfl
  intro L
  induction L with
  | zero =>
    intro s hl
    cases s with
    | nil => rfl
    | cons c rest => simp at hl
  | succ L ih =>
    intro s hl
    cases s with
    | nil => rfl
    | cons c rest =>
      show noSemiBrace (subGo mSemiBrace (c :: rest) 0) = true
      cases hm : mSemiBrace (c :: rest) with
      | some p =>
        obtain ⟨n, rep⟩ := p
        have hrep := mSemiBrace_rep _ _ _ hm
        obtain ⟨hn1, hn2, _⟩ := mSemiBrace_span _ _ _ hm
        rw [subGo_match hm hn1, hrep]
        have hlen : ((c :: rest).drop n).length ≤ L := by
          rw [List.length_drop]
          have hl2 : rest.length + 1 ≤ L + 1 := hl
          show rest.length + 1 - n ≤ L
          omega
        have hIH := ih _ hlen
        unfold noSemiBrace at hIH ⊢
        rw [List.cons_append, List.cons_append, List.nil_append]
        rw [noAdjPair_cons_iff, noAdjPair_cons_iff]
        refine ⟨?_, ?_, hIH⟩
        · rintro ⟨hsp, _⟩
          exact absurd hsp (by decide)
        · rintro ⟨hlb, _⟩
          exact absurd hlb (by decide)
      | none =>
        rw [subGo_nomatch hm]
        have hlen : rest.length ≤ L := by
          have hl2 : rest.length + 1 ≤ L + 1 := hl
          omega
        have hIH := ih _ hlen
        unfold noSemiBrace at hIH ⊢
        rw [noAdjPair_cons_iff]
        refine ⟨?_, hIH⟩
        rintro ⟨rfl, hh⟩
        have hh3 : (subSemiBrace rest).head? = some lbrace := hh
        rcases subSemiBrace_head rest with hh2 | hh2
        · rw [hh2] at hh3
          exact absurd (Option.some.inj hh3).symm (by decide)
        · rw [hh2] at hh3
          cases rest with
          | nil => simp at hh3
          | cons d r2 =>
            simp only [List.head?_cons, Option.some.injEq] at hh3
            subst hh3
            have hdw : List.dropWhile isPyWs (lbrace :: r2) = lbrace :: r2 :=
              List.dropWhile_cons_of_neg (by decide)
            have hmm : mSemiBrace (semi :: lbrace :: r2) ≠ none := by
              simp [mSemiBrace, hdw]
            exact hmm hm

/-- `re.sub(r",\s*;", ";", s)` preserves the absence of
semicolon-before-brace. -/
theorem subCommaSemi_noSemiBrace :
    ∀ (s : List Char), noSemiBrace s = true → noSemiBrace (subCommaSemi s) = true := by
  suffices H : ∀ (L : Nat) (s : List Char), s.length ≤ L → noSemiBrace s = true →
      noSemiBrace (subCommaSemi s) = true by
    exact fun s => H s.length s le_rfl
  intro L
  induction L with
  | zero =>
    intro s hl hs
    cases s with
    | nil => rfl
    | cons c rest => simp at hl
  | succ L ih =>
    intro s hl hs
    cases s with
    | nil => rfl
    | cons c rest =>
      show noSemiBrace (subGo mCommaSemi (c :: rest) 0) = true
      cases hm : mCommaSemi (c :: rest) with
      | some p =>
        obtain ⟨n, rep⟩ := p
        have hrep := mCommaSemi_rep _ _ _ hm
        obtain ⟨hn1, hn2, _⟩ := mCommaSemi_span _ _ _ hm
        rw [subGo_match hm hn1, hrep]
        have hlen : ((c :: rest).drop n).length ≤ L := by
          rw [List.length_drop]
          have hl2 : rest.length + 1 ≤ L + 1 := hl
          show rest.length + 1 - n ≤ L
          omega
        have hdropadj : noSemiBrace ((c :: rest).drop n) = true := noAdjPair_drop n hs
        have hIH := ih _ hlen hdropadj
        unfold noSemiBrace at hIH ⊢
        rw [List.cons_append, List.nil_append, noAdjPair_cons_iff]
        refine ⟨?_, hIH⟩
        rintro ⟨_, hh⟩
        have hh3 : (subCommaSemi ((c :: rest).drop n)).head? = some lbrace := hh
        rcases subCommaSemi_head ((c :: rest).drop n) with hh2 | hh2
        · rw [hh2] at hh3
          exact absurd (Option.some.inj hh3).symm (by decide)
        · rw [hh2] at hh3
          cases hD : (c :: rest).drop n with
          | nil => rw [hD] at hh3; simp at hh3
          | cons d r2 =>
            rw [hD] at hh3
            simp only [List.head?_cons, Option.some.injEq] at hh3
            subst hh3
            obtain ⟨Q, hQ⟩ := mCommaSemi_take _ _ _ hm
            have hfull : (c :: rest) = Q ++ semi :: lbrace :: r2 := by
              have h3 := List.take_append_drop n (c :: rest)
              rw [hQ, hD] at h3
              rw [← h3]
              simp
            exact absurd hs (by
              intro hcontra
              exact noAdjPair_no_infix Q r2 _ hfull hcontra)
      | none =>
        rw [subGo_nomatch hm]
        have hlen : rest.length ≤ L := by
          have hl2 : rest.length + 1 ≤ L + 1 := hl
          omega
        have hIH := ih _ hlen (noAdjPair_tail hs)
        unfold noSemiBrace at hIH ⊢
        rw [noAdjPair_cons_iff]
        refine ⟨?_, hIH⟩
        rintro ⟨rfl, hh⟩
        have hh3 : (subCommaSemi rest).head? = some lbrace := hh
        rcases subCommaSemi_head rest with hh2 | hh2
        · rw [hh2] at hh3
          exact absurd (Option.some.inj hh3).symm (by decide)
        · rw [hh2] at hh3
          cases rest with
          | nil => simp at hh3
          | cons d r2 =>
            simp only [List.head?_cons, Option.some.injEq] at hh3
            subst hh3
            exact noAdjPair_no_infix [] r2 _ rfl hs

theorem collapseSemisGo_true_eq :
    ∀ (s : List Char), collapseSemisGo true s = collapseSemisGo false (s.dropWhile (· == semi)) := by
  intro s
  induction s with
  | nil => rfl
  | cons c rest ih =>
    by_cases hc : (c == semi) = true
    · simp only [List.dropWhile_cons, hc, if_true, collapseSemisGo]
      exact ih
    · have hc2 : (c == semi) = false := by
        cases hx : (c == semi) with
        | false => rfl
        | true => exact absurd hx hc
      simp only [List.dropWhile_cons, hc2, Bool.false_eq_true, if_false, collapseSemisGo]

theorem collapseSemisGo_false_head (t : List Char) :
    (collapseSemisGo false t).head? = t.head? := by
  cases t with
  | nil => rfl
  | cons c rest =>
    by_cases hc : (c == semi) = true
    · have hc3 : c = semi := by rwa [beq_iff_eq] at hc
      subst hc3
      simp [collapseSemisGo]
    · have hc2 : (c == semi) = false := by
        cases hx : (c == semi) with
        | false => rfl
        | true => exact absurd hx hc
      simp only [collapseSemisGo, hc2, Bool.false_eq_true, if_false, List.head?_cons]

theorem collapseSemisGo_true_head (t : List Char) :
    (collapseSemisGo true t).head? ≠ some semi := by
  rw [collapseSemisGo_true_eq, collapseSemisGo_false_head]
  cases hD : t.dropWhile (· == semi) with
  | nil => simp
  | cons d r2 =>
    have hd := List.head?_dropWhile_not (· == semi) t
    rw [hD] at hd
    simp only [List.head?_cons, Option.map_some'] at hd ⊢
    intro hcon
    obtain rfl := Option.some.inj hcon
    simp at hd

/-- `re.sub(r";+", ";", s)` leaves no two adjacent semicolons. -/
theorem collapseSemisGo_noDoubleSemi :
    ∀ (s : List Char) (b : Bool), noDoubleSemi (collapseSemisGo b s) = true := by
  intro s
  induction s with
  | nil => intro b; rfl
  | cons c rest ih =>
    intro b
    by_cases hc : (c == semi) = true
    · cases b with
      | true =>
        simp only [collapseSemisGo, hc, if_true]
        exact ih true
      | false =>
        simp only [collapseSemisGo, hc, if_true, Bool.false_eq_true, if_false]
        unfold noDoubleSemi
        rw [noAdjPair_cons_iff]
        refine ⟨?_, ih true⟩
        rintro ⟨_, hh⟩
        exact collapseSemisGo_true_head rest hh
    · have hc2 : (c == semi) = false := by
        cases hx : (c == semi) with
        | false => rfl
        | true => exact absurd hx hc
      have hc3 : c ≠ semi := by
        intro hcc
        rw [hcc] at hc2
        simp at hc2
      simp only [collapseSemisGo, hc2, Bool.false_eq_true, if_false]
      unfold noDoubleSemi
      rw [noAdjPair_cons_iff]
      refine ⟨?_, ih false⟩
      rintro ⟨rfl, _⟩
      exact hc3 rfl

/-- `re.sub(r";+", ";", s)` preserves the absence of
semicolon-before-brace. -/
theorem collapseSemisGo_noSemiBrace :
    ∀ (s : List Char), noSemiBrace s = true → noSemiBrace (collapseSemisGo false s) = true := by
  suffices H : ∀ (L : Nat) (s : List Char), s.length ≤ L → noSemiBrace s = true →
      noSemiBrace (collapseSemisGo false s) = true by
    exact fun s => H s.length s le_rfl
  intro L
  induction L with
  | zero =>
    intro s hl hs
    cases s with
    | nil => rfl
    | cons c rest => simp at hl
  | succ L ih =>
    intro s hl hs
    cases s with
    | nil => rfl
    | cons c rest =>
      by_cases hc : (c == semi) = true
      · simp only [collapseSemisGo, hc, if_true, Bool.false_eq_true, if_false]
        rw [collapseSemisGo_true_eq]
        set D := rest.dropWhile (· == semi) with hDdef
        have hsuff : noSemiBrace D = true := by
          have h1 : noSemiBrace rest = true := noAdjPair_tail hs
          have h2 := List.takeWhile_append_dropWhile (· == semi) rest
          rw [← h2] at h1
          exact noAdjPair_append_right _ _ h1
        have hlen : D.length ≤ L := by
          have h3 : D.length ≤ rest.length := by
            rw [hDdef]
            exact (List.dropWhile_sublist _).length_le
          have hl2 : rest.length + 1 ≤ L + 1 := hl
          omega
        have hIH := ih _ hlen hsuff
        unfold noSemiBrace at hIH ⊢
        rw [noAdjPair_cons_iff]
        refine ⟨?_, hIH⟩
        rintro ⟨_, hh⟩
        rw [collapseSemisGo_false_head] at hh
        cases hD2 : D with
        | nil => rw [hD2] at hh; simp at hh
        | cons d r2 =>
          rw [hD2] at hh
          simp only [List.head?_cons, Option.some.injEq] at hh
          subst hh
          have hT : c :: rest = (c :: rest.takeWhile (· == semi)) ++ lbrace :: r2 := by
            rw [List.cons_append]
            congr 1
            have h2 := List.takeWhile_append_dropWhile (· == semi) rest
            conv_lhs => rw [← h2]
            rw [← hDdef, hD2]
          have hc3 : c = semi := by rwa [beq_iff_eq] at hc
          have hallsemi : ∀ a ∈ c :: rest.takeWhile (· == semi), a = semi := by
            intro a ha
            rcases List.mem_cons.mp ha with rfl | ha2
            · exact hc3
            · have := List.mem_takeWhile_imp ha2
              rwa [beq_iff_eq] at this
          have hne : (c :: rest.takeWhile (· == semi)) ≠ [] := by simp
          obtain ⟨Q, hQ⟩ : ∃ Q, c :: rest.takeWhile (· == semi) = Q ++ [semi] := by
            refine ⟨(c :: rest.takeWhile (· == semi)).dropLast, ?_⟩
            have hlast := List.dropLast_append_getLast hne
            have hlmem := List.getLast_mem hne
            rw [hallsemi _ hlmem] at hlast
            exact hlast.symm
          rw [hQ] at hT
          have hT2 : c :: rest = Q ++ semi :: lbrace :: r2 := by
            rw [hT]
            simp
          exact absurd hs (by
            intro hcontra
            exact noAdjPair_no_infix Q r2 _ hT2 hcontra)
      · have hc2 : (c == semi) = false := by
          cases hx : (c == semi) with
          | false => rfl
          | true => exact absurd hx hc
        have hc3 : c ≠ semi := by
          intro hcc
          rw [hcc] at hc2
          simp at hc2
        simp only [collapseSemisGo, hc2, Bool.false_eq_true, if_false]
        have hlen : rest.length ≤ L := by
          have hl2 : rest.length + 1 ≤ L + 1 := hl
          omega
        have hIH := ih _ hlen (noAdjPair_tail hs)
        unfold noSemiBrace at hIH ⊢
        rw [noAdjPair_cons_iff]
        refine ⟨?_, hIH⟩
        rintro ⟨rfl, _⟩
        exact hc3 rfl

/-- The three whole-text cleanups of the legacy `clean_css` guarantee, on
any input, no adjacent `;;` and no `;` directly before `\x7b`. -/
theorem finalCleanup_clean (s : List Char) :
    noDoubleSemi (finalCleanup s) = true ∧ noSemiBrace (finalCleanup s) = true := by
  unfold finalCleanup
  constructor
  · exact collapseSemisGo_noDoubleSemi _ false
  · exact collapseSemisGo_noSemiBrace _
      (subCommaSemi_noSemiBrace _ (subSemiBrace_noSemiBrace _))

/-! ### The brace-depth counter of `clean_css` (claim C9) -/

theorem cssStep_nonneg (st : CssSt) (l : List Char) (h : 0 ≤ st.braceCount) :
    0 ≤ (cssStep st l).1.braceCount := by
  simp only [cssStep]
  split_ifs with h1 h2 h3 h4 h5 h6 h7 <;> simp <;> omega

theorem cssRun_nil (st : CssSt) : cssRun st [] = st := rfl

theorem cssRun_cons (st : CssSt) (l : List Char) (ls : List (List Char)) :
    cssRun st (l :: ls) = cssRun (cssStep st l).1 ls := rfl

theorem cssRun_nonneg :
    ∀ (lines : List (List Char)) (st : CssSt), 0 ≤ st.braceCount →
      0 ≤ (cssRun st lines).braceCount := by
  intro lines
  induction lines with
  | nil => intro st h; exact h
  | cons l ls ih =>
    intro st h
    rw [cssRun_cons]
    exact ih _ (cssStep_nonneg st l h)

theorem cssStep_closing (st : CssSt) (l : List Char) (h : stripPy l = [rbrace]) :
    (cssStep st l).1 =
      if st.braceCount - 1 ≤ 0 then (⟨false, false, false, 0⟩ : CssSt)
      else { st with braceCount := st.braceCount - 1 } := by
  have hne : (([rbrace] : List Char) == []) = false := by decide
  have heq : (([rbrace] : List Char) == [rbrace]) = true := by decide
  simp only [cssStep, h, hne, Bool.false_eq_true, if_false, heq, if_true]
  split_ifs with hb
  · rfl
  · rfl

/-! ### Totality of the fence scanner (claim C1) -/

theorem takeUntilFence_length :
    ∀ {s b r : List Char}, takeUntilFence s = some (b, r) → r.length < s.length := by
  intro s
  induction s with
  | nil => intro b r h; simp [takeUntilFence] at h
  | cons c rest ih =>
    intro b r h
    unfold takeUntilFence at h
    by_cases hp : isPrefixL bq3 (c :: rest) = true
    · rw [if_pos hp] at h
      obtain ⟨_, hr⟩ := Prod.mk.injEq _ _ _ _ ▸ Option.some.inj h
      subst hr
      rcases isPrefixL_iff.mp hp with ⟨w, hw⟩
      have hlen : (c :: rest).length = 3 + w.length := by
        rw [hw]
        simp only [bq3, List.length_append, List.length_cons, List.length_nil]
        try omega
      rw [List.length_drop]
      simp only [List.length_cons] at hlen ⊢
      omega
    · rw [if_neg hp] at h
      cases hin : takeUntilFence rest with
      | none => rw [hin] at h; simp at h
      | some p =>
        obtain ⟨b2, r2⟩ := p
        rw [hin] at h
        simp only [Option.map_some', Option.some.injEq, Prod.mk.injEq] at h
        obtain ⟨_, hr⟩ := h
        subst hr
        have := ih hin
        simp only [List.length_cons]
        omega

theorem matchFenceAt_length :
    ∀ {s lang body r : List Char}, matchFenceAt s = some (lang, body, r) →
      r.length < s.length := by
  intro s lang body r h
  unfold matchFenceAt at h
  by_cases hp : isPrefixL bq3 s = true
  · rw [if_pos hp] at h
    rcases isPrefixL_iff.mp hp with ⟨w, hw⟩
    split at h
    · rename_i c t3 heq
      by_cases hlf : (c == lf) = true
      · rw [if_pos hlf] at h
        cases htf : takeUntilFence t3 with
        | none => rw [htf] at h; simp at h
        | some p =>
          obtain ⟨b2, r2⟩ := p
          rw [htf] at h
          simp only [Option.map_some', Option.some.injEq, Prod.mk.injEq] at h
          obtain ⟨_, _, hr⟩ := h
          subst hr
          have h1 := takeUntilFence_length htf
          have h2 : (c :: t3).length ≤ (s.drop 3).length := by
            rw [← heq]
            exact (List.dropWhile_sublist _).length_le
          have h3 : (s.drop 3).length = s.length - 3 := List.length_drop 3 s
          have h4 : s.length = 3 + w.length := by
            rw [hw]
            simp only [bq3, List.length_append, List.length_cons, List.length_nil]
            try omega
          simp only [List.length_cons] at h2
          omega
      · rw [if_neg hlf] at h
        exact absurd h (by simp)
    · exact absurd h (by simp)
  · rw [if_neg hp] at h
    exact absurd h (by simp)

/-- With fuel equal to the text length, the fence scan always returns a
result: this is the totality of `re.findall` on every input. -/
theorem scanFences_total :
    ∀ (fuel : Nat) (s : List Char), s.length ≤ fuel →
      ∃ bs, scanFences fuel s = some bs := by
  intro fuel
  induction fuel with
  | zero =>
    intro s hl
    cases s with
    | nil => exact ⟨[], rfl⟩
    | cons c rest => simp at hl
  | succ fuel ih =>
    intro s hl
    cases s with
    | nil => exact ⟨[], rfl⟩
    | cons c rest =>
      show ∃ bs, (match matchFenceAt (c :: rest) with
        | some (lang, body, rest2) => (scanFences fuel rest2).map (fun bs => (lang, body) :: bs)
        | none => scanFences fuel rest) = some bs
      cases hm : matchFenceAt (c :: rest) with
      | some p =>
        obtain ⟨lang, body, rest2⟩ := p
        simp only [hm]
        have hlen : rest2.length ≤ fuel := by
          have := matchFenceAt_length hm
          have hl2 : rest.length + 1 ≤ fuel + 1 := hl
          simp only [List.length_cons] at this
          omega
        obtain ⟨bs, hbs⟩ := ih rest2 hlen
        exact ⟨(lang, body) :: bs, by rw [hbs]; rfl⟩
      | none =>
        simp only [hm]
        have hlen : rest.length ≤ fuel := by
          have hl2 : rest.length + 1 ≤ fuel + 1 := hl
          omega
        exact ih rest hlen

/-! ### Texts with no fence at all (claim C8) -/

theorem containsSub_cons_false {u : List Char} {c : Char} {rest : List Char}
    (h : containsSub u (c :: rest) = false) :
    isPrefixL u (c :: rest) = false ∧ containsSub u rest = false := by
  have : (isPrefixL u (c :: rest) || containsSub u rest) = false := h
  exact ⟨(Bool.or_eq_false_iff.mp this).1, (Bool.or_eq_false_iff.mp this).2⟩

theorem no_bq3_matchFenceAt {s : List Char} (h : containsSub bq3 s = false) :
    matchFenceAt s = none := by
  unfold matchFenceAt
  rw [if_neg]
  intro hp
  cases s with
  | nil => simp [isPrefixL, bq3] at hp
  | cons c rest =>
    have := (containsSub_cons_false h).1
    rw [hp] at this
    exact Bool.noConfusion this

theorem no_bq3_scanFences :
    ∀ (fuel : Nat) (s : List Char), s.length ≤ fuel → containsSub bq3 s = false →
      scanFences fuel s = some [] := by
  intro fuel
  induction fuel with
  | zero =>
    intro s hl _
    cases s with
    | nil => rfl
    | cons c rest => simp at hl
  | succ fuel ih =>
    intro s hl h
    cases s with
    | nil => rfl
    | cons c rest =>
      show (match matchFenceAt (c :: rest) with
        | some (lang, body, rest2) => (scanFences fuel rest2).map (fun bs => (lang, body) :: bs)
        | none => scanFences fuel rest) = some []
      simp only [no_bq3_matchFenceAt h]
      have hlen : rest.length ≤ fuel := by
        have hl2 : rest.length + 1 ≤ fuel + 1 := hl
        omega
      exact ih rest hlen (containsSub_cons_false h).2

theorem no_bq3_searchUntagged :
    ∀ (s : List Char), containsSub bq3 s = false → searchUntagged s = none := by
  intro s
  induction s with
  | nil => intro _; rfl
  | cons c rest ih =>
    intro h
    unfold searchUntagged
    rw [if_neg]
    · exact ih (containsSub_cons_false h).2
    · intro hp
      rcases isPrefixL_iff.mp hp with ⟨w, hw⟩
      have hp3 : isPrefixL bq3 (c :: rest) = true := by
        refine isPrefixL_iff.mpr ⟨lf :: w, ?_⟩
        rw [hw]
        simp [bq3, bq3nl]
      have := (containsSub_cons_false h).1
      rw [hp3] at this
      exact Bool.noConfusion this

theorem no_bq3_searchCode :
    ∀ (s : List Char), containsSub bq3 s = false → searchCode s = none := by
  intro s
  induction s with
  | nil => intro _; rfl
  | cons c rest ih =>
    intro h
    unfold searchCode
    rw [if_neg]
    · exact ih (containsSub_cons_false h).2
    · intro hp
      have := (containsSub_cons_false h).1
      rw [hp] at this
      exact Bool.noConfusion this

/-! ### The last-match-wins classification (claim C4) -/

theorem tags_disjoint (lang : List Char) (h1 : codeTags.contains lang = true) :
    styleTags.contains lang = false := by
  have hmem : lang ∈ codeTags := by
    have h2 : codeTags.elem lang = true := by simpa [List.contains] using h1
    exact List.elem_iff.mp h2
  fin_cases hmem <;> decide

theorem classify_append (bs : List (List Char × List Char)) (b : List Char × List Char) :
    classify (bs ++ [b]) = classifyStep (classify bs) b := by
  unfold classify
  rw [List.foldl_append]
  rfl

theorem classify_spec :
    ∀ (blocks : List (List Char × List Char)),
      (classify blocks).1 = (match (blocks.filter isCodeTagged).getLast? with
        | some b => stripPy b.2
        | none => []) ∧
      (classify blocks).2 = (match (blocks.filter isStyleTagged).getLast? with
        | some b => stripPy b.2
        | none => []) := by
  intro blocks
  induction blocks using List.reverseRecOn with
  | nil => exact ⟨rfl, rfl⟩
  | append_singleton bs b ih =>
    obtain ⟨ih1, ih2⟩ := ih
    rw [classify_append]
    by_cases hcode : isCodeTagged b = true
    · have hstyle : isStyleTagged b = false := tags_disjoint _ hcode
      have hcodeX : codeTags.contains (stripPy (b.1.map Char.toLower)) = true := hcode
      constructor
      · have hfc : (bs ++ [b]).filter isCodeTagged = bs.filter isCodeTagged ++ [b] := by
          rw [List.filter_append]
          congr 1
          simp [List.filter, hcode]
        rw [hfc, List.getLast?_concat]
        show (classifyStep (classify bs) b).1 = stripPy b.2
        unfold classifyStep
        rw [if_pos hcodeX]
      · have hfs : (bs ++ [b]).filter isStyleTagged = bs.filter isStyleTagged := by
          rw [List.filter_append]
          have h0 : ([b] : List (List Char × List Char)).filter isStyleTagged = [] := by
            simp [List.filter, hstyle]
          rw [h0, List.append_nil]
        rw [hfs]
        show (classifyStep (classify bs) b).2 = _
        unfold classifyStep
        rw [if_pos hcodeX]
        exact ih2
    · have hcode2 : isCodeTagged b = false := by
        cases hx : isCodeTagged b with
        | false => rfl
        | true => exact absurd hx hcode
      have hcodeN : ¬ codeTags.contains (stripPy (b.1.map Char.toLower)) = true := by
        intro hx
        have h0 : codeTags.contains (stripPy (b.1.map Char.toLower)) = false := hcode2
        rw [hx] at h0
        exact Bool.noConfusion h0
      have hfc : (bs ++ [b]).filter isCodeTagged = bs.filter isCodeTagged := by
        rw [List.filter_append]
        have h0 : ([b] : List (List Char × List Char)).filter isCodeTagged = [] := by
          simp [List.filter, hcode2]
        rw [h0, List.append_nil]
      by_cases hstyle : isStyleTagged b = true
      · have hstyleX : styleTags.contains (stripPy (b.1.map Char.toLower)) = true := hstyle
        constructor
        · rw [hfc]
          show (classifyStep (classify bs) b).1 = _
          unfold classifyStep
          rw [if_neg hcodeN, if_pos hstyleX]
          exact ih1
        · have hfs : (bs ++ [b]).filter isStyleTagged = bs.filter isStyleTagged ++ [b] := by
            rw [List.filter_append]
            congr 1
            simp [List.filter, hstyle]
          rw [hfs, List.getLast?_concat]
          show (classifyStep (classify bs) b).2 = stripPy b.2
          unfold classifyStep
          rw [if_neg hcodeN, if_pos hstyleX]
      · have hstyle2 : isStyleTagged b = false := by
          cases hx : isStyleTagged b with
          | false => rfl
          | true => exact absurd hx hstyle
        have hstyleN : ¬ styleTags.contains (stripPy (b.1.map Char.toLower)) = true := by
          intro hx
          have h0 : styleTags.contains (stripPy (b.1.map Char.toLower)) = false := hstyle2
          rw [hx] at h0
          exact Bool.noConfusion h0
        have hfs : (bs ++ [b]).filter isStyleTagged = bs.filter isStyleTagged := by
          rw [List.filter_append]
          have h0 : ([b] : List (List Char × List Char)).filter isStyleTagged = [] := by
            simp [List.filter, hstyle2]
          rw [h0, List.append_nil]
        have hstep : classifyStep (classify bs) b = classify bs := by
          unfold classifyStep
          rw [if_neg hcodeN, if_neg hstyleN]
        rw [hstep, hfc, hfs]
        exact ⟨ih1, ih2⟩

/-! ### Python `splitlines` and rejoin (claims C6 and C7) -/

theorem slAll_ne_nil : ∀ (s cur : List Char) (b : Bool), slAll b cur s ≠ [] := by
  intro s
  induction s with
  | nil => intro cur b; simp [slAll]
  | cons c rest ih =>
    intro cur b
    unfold slAll
    split_ifs <;> simp_all

theorem joinNl_cons_ne {x : List Char} {L : List (List Char)} (h : L ≠ []) :
    joinNl (x :: L) = x ++ lf :: joinNl L := by
  cases L with
  | nil => exact absurd rfl h
  | cons y ys => rfl

theorem joinNl_slAll :
    ∀ (s cur : List Char), (∀ c ∈ s, isLineBreak c = true → c = lf) →
      joinNl (slAll false cur s) = cur.reverse ++ s := by
  intro s
  induction s with
  | nil => intro cur _; simp [slAll, joinNl]
  | cons c rest ih =>
    intro cur hbr
    by_cases hb : isLineBreak c = true
    · have hc : c = lf := hbr c (List.mem_cons_self c rest) hb
      subst hc
      show joinNl (slAll false cur (lf :: rest)) = cur.reverse ++ lf :: rest
      unfold slAll
      rw [if_neg (by simp), if_neg (by decide), if_pos (by decide)]
      rw [joinNl_cons_ne (slAll_ne_nil rest [] false)]
      rw [ih [] (fun x hx => hbr x (List.mem_cons_of_mem lf hx))]
      simp
    · have hb2 : isLineBreak c = false := by
        cases hx : isLineBreak c with
        | false => rfl
        | true => exact absurd hx hb
      have hcr : (c == cr) = false := by
        cases hx : (c == cr) with
        | false => rfl
        | true =>
          exfalso
          have : c = cr := by rwa [beq_iff_eq] at hx
          subst this
          rw [(by decide : isLineBreak cr = true)] at hb2
          exact Bool.noConfusion hb2
      show joinNl (slAll false cur (c :: rest)) = cur.reverse ++ c :: rest
      unfold slAll
      rw [if_neg (by simp), if_neg (by rw [hcr]; exact Bool.noConfusion),
        if_neg (by rw [hb2]; exact Bool.noConfusion)]
      rw [ih (c :: cur) (fun x hx => hbr x (List.mem_cons_of_mem c hx))]
      simp

theorem splitlines_roundtrip {s : List Char}
    (hbr : ∀ c ∈ s, isLineBreak c = true → c = lf)
    (hlast : s.getLast? ≠ some lf) :
    joinNl (splitlinesPy s) = s := by
  cases s with
  | nil => rfl
  | cons c rest =>
    cases hx : (c :: rest).getLast? with
    | none => simp at hx
    | some x =>
      have hxmem : x ∈ c :: rest := by
        have h0 := List.getLast?_eq_getLast_of_ne_nil (show (c :: rest) ≠ [] by simp)
        rw [hx] at h0
        have hx2 : x = (c :: rest).getLast (by simp) := Option.some.inj h0
        rw [hx2]
        exact List.getLast_mem _
      have hxbr : isLineBreak x = false := by
        cases hy : isLineBreak x with
        | false => rfl
        | true =>
          exfalso
          have := hbr x hxmem hy
          subst this
          exact hlast hx
      have hnb : ¬ isLineBreak x = true := by
        intro hy
        rw [hy] at hxbr
        exact Bool.noConfusion hxbr
      have heq : splitlinesPy (c :: rest) = slAll false [] (c :: rest) := by
        simp only [splitlinesPy, hx]
        rw [if_neg hnb]
      rw [heq]
      exact joinNl_slAll (c :: rest) [] hbr

theorem slAll_single :
    ∀ (s : List Char), (∀ c ∈ s, isLineBreak c = false) →
      ∀ (cur : List Char), slAll false cur s = [cur.reverse ++ s] := by
  intro s
  induction s with
  | nil => intro _ cur; simp [slAll]
  | cons c rest ih =>
    intro h cur
    have hc : isLineBreak c = false := h c (List.mem_cons_self c rest)
    have hcr : (c == cr) = false := by
      cases hx : (c == cr) with
      | false => rfl
      | true =>
        exfalso
        have : c = cr := by rwa [beq_iff_eq] at hx
        subst this
        rw [(by decide : isLineBreak cr = true)] at hc
        exact Bool.noConfusion hc
    unfold slAll
    rw [if_neg (by simp), if_neg (by rw [hcr]; exact Bool.noConfusion),
      if_neg (by rw [hc]; exact Bool.noConfusion)]
    rw [ih (fun x hx => h x (List.mem_cons_of_mem c hx)) (c :: cur)]
    simp

theorem slAll_break_free :
    ∀ (s cur : List Char) (b : Bool), (∀ c ∈ cur, isLineBreak c = false) →
      ∀ l ∈ slAll b cur s, ∀ c ∈ l, isLineBreak c = false := by
  intro s
  induction s with
  | nil =>
    intro cur b hcur l hl c hc
    simp only [slAll, List.mem_singleton] at hl
    subst hl
    exact hcur c (List.mem_reverse.mp hc)
  | cons x rest ih =>
    intro cur b hcur l hl c hc
    unfold slAll at hl
    split_ifs at hl with h1 h2 h3
    · exact ih cur false hcur l hl c hc
    · rcases List.mem_cons.mp hl with rfl | hl2
      · exact hcur c (List.mem_reverse.mp hc)
      · exact ih [] true (by simp) l hl2 c hc
    · rcases List.mem_cons.mp hl with rfl | hl2
      · exact hcur c (List.mem_reverse.mp hc)
      · exact ih [] false (by simp) l hl2 c hc
    · refine ih (x :: cur) false ?_ l hl c hc
      intro y hy
      rcases List.mem_cons.mp hy with rfl | hy2
      · cases hz : isLineBreak y with
        | false => rfl
        | true => exact absurd hz h3
      · exact hcur y hy2

theorem splitlinesPy_break_free :
    ∀ (s : List Char), ∀ l ∈ splitlinesPy s, ∀ c ∈ l, isLineBreak c = false := by
  intro s l hl c hc
  cases s with
  | nil => exact absurd hl (List.not_mem_nil l)
  | cons x rest =>
    have hsub : l ∈ slAll false [] (x :: rest) := by
      cases hg : (x :: rest).getLast? with
      | none => simp at hg
      | some d =>
        simp only [splitlinesPy, hg] at hl
        by_cases hd : isLineBreak d = true
        · rw [if_pos hd] at hl
          exact (List.dropLast_sublist _).subset hl
        · rw [if_neg hd] at hl
          exact hl
    exact slAll_break_free (x :: rest) [] false (by simp) l hsub c hc

theorem slAll_append_line :
    ∀ (k : List Char), (∀ c ∈ k, isLineBreak c = false) →
      ∀ (cur T : List Char),
        slAll false cur (k ++ lf :: T) = (cur.reverse ++ k) :: slAll false [] T := by
  intro k
  induction k with
  | nil =>
    intro _ cur T
    show slAll false cur (lf :: T) = (cur.reverse ++ []) :: slAll false [] T
    rw [List.append_nil]
    conv_lhs => unfold slAll
    rw [if_neg (by simp), if_neg (by decide), if_pos (by decide)]
  | cons a k' ih =>
    intro h cur T
    have ha : isLineBreak a = false := h a (List.mem_cons_self a k')
    have hacr : (a == cr) = false := by
      cases hx : (a == cr) with
      | false => rfl
      | true =>
        exfalso
        have : a = cr := by rwa [beq_iff_eq] at hx
        subst this
        rw [(by decide : isLineBreak cr = true)] at ha
        exact Bool.noConfusion ha
    show slAll false cur ((a :: k') ++ lf :: T) = (cur.reverse ++ a :: k') :: slAll false [] T
    rw [List.cons_append]
    conv_lhs => unfold slAll
    rw [if_neg (by simp), if_neg (by rw [hacr]; exact Bool.noConfusion),
      if_neg (by rw [ha]; exact Bool.noConfusion)]
    rw [ih (fun x hx => h x (List.mem_cons_of_mem a hx)) (a :: cur) T]
    simp

theorem slAll_joinNl_id :
    ∀ (K : List (List Char)), K ≠ [] →
      (∀ k ∈ K, ∀ c ∈ k, isLineBreak c = false) →
      slAll false [] (joinNl K) = K := by
  intro K
  induction K with
  | nil => intro h _; exact absurd rfl h
  | cons k K' ih =>
    intro _ hK
    cases K' with
    | nil =>
      show slAll false [] k = [k]
      rw [slAll_single k (hK k (List.mem_cons_self k [])) []]
      simp
    | cons k1 K'' =>
      rw [joinNl_cons_ne (by simp)]
      rw [slAll_append_line k (hK k (List.mem_cons_self k _)) [] (joinNl (k1 :: K''))]
      rw [ih (by simp) (fun x hx => hK x (List.mem_cons_of_mem k hx))]
      simp

theorem splitlines_join_subset :
    ∀ (K : List (List Char)), (∀ k ∈ K, ∀ c ∈ k, isLineBreak c = false) →
      ∀ l ∈ splitlinesPy (joinNl K), l ∈ K := by
  intro K hK l hl
  cases K with
  | nil =>
    rw [(rfl : joinNl ([] : List (List Char)) = [])] at hl
    exact absurd hl (List.not_mem_nil l)
  | cons k K' =>
    have hid : slAll false [] (joinNl (k :: K')) = k :: K' :=
      slAll_joinNl_id (k :: K') (by simp) hK
    cases hJ : joinNl (k :: K') with
    | nil =>
      rw [hJ] at hl
      exact absurd hl (List.not_mem_nil l)
    | cons j js =>
      rw [hJ] at hl hid
      have hsub : l ∈ slAll false [] (j :: js) := by
        cases hg : (j :: js).getLast? with
        | none => simp at hg
        | some d =>
          simp only [splitlinesPy, hg] at hl
          by_cases hd : isLineBreak d = true
          · rw [if_pos hd] at hl
            exact (List.dropLast_sublist _).subset hl
          · rw [if_neg hd] at hl
            exact hl
      rw [hid] at hsub
      exact hsub

theorem replaceStr_id {pat rep : List Char} :
    ∀ {s : List Char}, containsSub pat s = false → replaceStr pat rep s = s := by
  intro s
  induction s with
  | nil => intro _; rfl
  | cons c rest ih =>
    intro h
    obtain ⟨hpre, hrest⟩ := containsSub_cons_false h
    have hm : mLit pat rep (c :: rest) = none := by
      unfold mLit
      rw [if_neg]
      intro hcond
      rw [Bool.and_eq_true] at hcond
      rw [hcond.2] at hpre
      exact Bool.noConfusion hpre
    show subGo (mLit pat rep) (c :: rest) 0 = c :: rest
    rw [subGo_nomatch hm]
    congr 1
    exact ih hrest

/-! ### The claims -/

/-- C1: totality of the sanitation core — on every input string the fence
extractor (with fuel equal to the input length), the single-block
extractor, the import filter and the CSS repair all return normally; no
input makes any of them fail. -/
theorem C1_sanitation_core_total (s : List Char) :
    (∃ p, extract_code_and_cssO s = some p) ∧
    (∃ r, extract_code s = r) ∧ (∃ r, clean_imports s = r) ∧ (∃ r, clean_css s = r) := by
  obtain ⟨bs, hbs⟩ := scanFences_total s.length s le_rfl
  have hO : ∃ p, extract_code_and_cssO s = some p := by
    unfold extract_code_and_cssO fencesO
    rw [hbs]
    exact ⟨_, rfl⟩
  exact ⟨hO, ⟨_, rfl⟩, ⟨_, rfl⟩, ⟨_, rfl⟩⟩

/-- C2 counterexample: on the spec's end-to-end scenario input the style
result does not even contain the substring `color: red`, so it cannot
contain the claimed repaired line `  color: red;` — the one-line rule
`.a \x7b color:red;; \x7d` passes through the line-oriented pass
untouched. -/
theorem C2_counterexample :
    (extract_code_and_cssO ("Here you go:\n```jsx\nconst X = () => <div class=\"a\">hi</div>;\n```\n```css\n.a \x7b color:red;; \x7d\n```").data).map
      (fun p => containsSub (("color: red").data) (clean_css p.2)) = some false := by
  decide

/-- C2 (amended): on the end-to-end scenario input the pipeline returns
code exactly `const X = () => <div className="a">hi</div>;`, and
`clean_css` returns the baseline variable block, two newlines, then the
original single-line rule `.a \x7b color:red;; \x7d` unchanged. -/
theorem C2_pipeline_scenario :
    extract_code_and_cssO ("Here you go:\n```jsx\nconst X = () => <div class=\"a\">hi</div>;\n```\n```css\n.a \x7b color:red;; \x7d\n```").data =
      some ((("const X = () => <div className=\"a\">hi</div>;").data),
            ((".a \x7b color:red;; \x7d").data)) ∧
    clean_css ((".a \x7b color:red;; \x7d").data) =
      cssVariables ++ nlnl ++ (".a \x7b color:red;; \x7d").data := by
  constructor
  · decide
  · have h1 : cssMain ((".a \x7b color:red;; \x7d").data) =
        (".a \x7b color:red;; \x7d").data := by decide
    have h2 : containsSub rootTok ((".a \x7b color:red;; \x7d").data) = false := by decide
    have h3 : ((".a \x7b color:red;; \x7d").data == ([] : List Char)) = false := by decide
    simp only [clean_css, h3, Bool.false_eq_true, if_false, h1,
      add_professional_css_patterns, h2]

/-- C3 counterexample: on the empty string `clean_css` returns the empty
string and no `:root` block is prepended, so the output does not contain
a root-scope declaration. -/
theorem C3_counterexample :
    clean_css [] = [] ∧ containsSub rootTok (clean_css []) = false := by
  decide

/-- C3 (amended): for every nonempty input the output of `clean_css`
contains `:root`; and for every input that already contains `:root` the
baseline block is not prepended (the output is exactly the line-repair
result), so the baseline block is never duplicated. -/
theorem C3_root_scope (s : List Char) :
    (s ≠ [] → containsSub rootTok (clean_css s) = true) ∧
    (containsSub rootTok s = true → clean_css s = cssMain s) := by
  constructor
  · intro hne
    have hbeq : (s == ([] : List Char)) = false := by
      cases hx : (s == ([] : List Char)) with
      | false => rfl
      | true => exact absurd (by rwa [beq_iff_eq] at hx) hne
    simp only [clean_css, hbeq, Bool.false_eq_true, if_false]
    unfold add_professional_css_patterns
    by_cases hroot : containsSub rootTok (cssMain s) = true
    · rw [if_pos hroot]
      exact hroot
    · rw [if_neg hroot]
      exact containsSub_append_l _ (by decide)
  · intro hin
    have hne : s ≠ [] := by
      intro h0
      rw [h0, containsSub_nil_false (by decide)] at hin
      exact Bool.noConfusion hin
    have hbeq : (s == ([] : List Char)) = false := by
      cases hx : (s == ([] : List Char)) with
      | false => rfl
      | true => exact absurd (by rwa [beq_iff_eq] at hx) hne
    simp only [clean_css, hbeq, Bool.false_eq_true, if_false]
    unfold add_professional_css_patterns
    rw [if_pos (cssMain_preserves_root hin)]

/-- C3 witness: a nonempty input gains a `:root` block, and an input that
already has one is returned by `clean_css` as the plain line-repair
result. -/
theorem C3_witness :
    ((("a").data ≠ ([] : List Char)) ∧
      containsSub rootTok (clean_css (("a").data)) = true) ∧
    (containsSub rootTok (((":root \x7b --x: 1; \x7d").data)) = true ∧
      clean_css (((":root \x7b --x: 1; \x7d").data)) =
        cssMain (((":root \x7b --x: 1; \x7d").data))) :=
  ⟨⟨by decide, (C3_root_scope (("a").data)).1 (by decide)⟩,
   ⟨by decide, (C3_root_scope (((":root \x7b --x: 1; \x7d").data))).2 (by decide)⟩⟩

/-- C4 counterexample: with two `jsx` fences whose last body is
`<p class="x">hi</p>`, the code result of `extract_code_and_css` is the
`clean_imports`-rewritten `<p className="x">hi</p>`, not the trimmed body
of the last fence as the claim states. -/
theorem C4_counterexample :
    (fencesO ("```jsx\nconst a = 1;\n```\n```jsx\n<p class=\"x\">hi</p>\n```").data).map
        (fun bs => ((bs.filter isCodeTagged).getLast?).map Prod.snd) =
      some (some (("<p class=\"x\">hi</p>\n").data)) ∧
    (extract_code_and_cssO ("```jsx\nconst a = 1;\n```\n```jsx\n<p class=\"x\">hi</p>\n```").data).map Prod.fst =
      some (("<p className=\"x\">hi</p>").data) ∧
    stripPy (("<p class=\"x\">hi</p>\n").data) ≠ ("<p className=\"x\">hi</p>").data := by
  refine ⟨by decide, by decide, by decide⟩

/-- C4 (amended): last-match-wins classification — when at least two
blocks carry code tags, the code result is `clean_imports` applied to the
trimmed body of the last code-tagged fence (provided that trimmed body is
nonempty); the style result is exactly the trimmed body of the last
style-tagged fence. -/
theorem C4_last_match_wins (s : List Char) (blocks : List (List Char × List Char))
    (hf : fencesO s = some blocks) :
    (∀ lb, 2 ≤ (blocks.filter isCodeTagged).length →
      (blocks.filter isCodeTagged).getLast? = some lb → stripPy lb.2 ≠ [] →
      (extract_code_and_cssO s).map Prod.fst = some (clean_imports (stripPy lb.2))) ∧
    (∀ sb, 2 ≤ (blocks.filter isStyleTagged).length →
      (blocks.filter isStyleTagged).getLast? = some sb →
      (extract_code_and_cssO s).map Prod.snd = some (stripPy sb.2)) := by
  obtain ⟨h1, h2⟩ := classify_spec blocks
  constructor
  · intro lb _ hlast hne
    have h1x : (classify blocks).1 = stripPy lb.2 := by rw [h1, hlast]
    have hbeq : (stripPy lb.2 == ([] : List Char)) = false := by
      cases hx : (stripPy lb.2 == ([] : List Char)) with
      | false => rfl
      | true => exact absurd (by rwa [beq_iff_eq] at hx) hne
    unfold extract_code_and_cssO
    rw [hf]
    simp only [Option.map_some', h1x, hbeq, Bool.false_eq_true, if_false]
  · intro sb _ hlast
    have h2x : (classify blocks).2 = stripPy sb.2 := by rw [h2, hlast]
    unfold extract_code_and_cssO
    rw [hf]
    simp only [Option.map_some', h2x]

/-- C4 witness: four fences, two code-tagged and two style-tagged; the
later block of each class wins. -/
theorem C4_witness :
    fencesO ("```jsx\nA\n```\n```jsx\nB2\n```\n```css\nC\n```\n```css\nD2\n```").data =
      some [((("jsx").data), (("A\n").data)), ((("jsx").data), (("B2\n").data)),
            ((("css").data), (("C\n").data)), ((("css").data), (("D2\n").data))] ∧
    (extract_code_and_cssO ("```jsx\nA\n```\n```jsx\nB2\n```\n```css\nC\n```\n```css\nD2\n```").data).map Prod.fst =
      some (clean_imports (stripPy (("B2\n").data))) ∧
    (extract_code_and_cssO ("```jsx\nA\n```\n```jsx\nB2\n```\n```css\nC\n```\n```css\nD2\n```").data).map Prod.snd =
      some (stripPy (("D2\n").data)) := by
  have hf : fencesO ("```jsx\nA\n```\n```jsx\nB2\n```\n```css\nC\n```\n```css\nD2\n```").data =
      some [((("jsx").data), (("A\n").data)), ((("jsx").data), (("B2\n").data)),
            ((("css").data), (("C\n").data)), ((("css").data), (("D2\n").data))] := by
    decide
  refine ⟨hf, ?_, ?_⟩
  · exact (C4_last_match_wins _ _ hf).1 ((("jsx").data), (("B2\n").data))
      (by decide) (by decide) (by decide)
  · exact (C4_last_match_wins _ _ hf).2 ((("css").data), (("D2\n").data))
      (by decide) (by decide)

/-- C5 counterexample: the live `clean_css` of `css_utils.py` has no
whole-text second pass; on `.x \x7b / a:b;,; / \x7d` its property-line
comma fix recreates a double semicolon, so the output contains `;;`. -/
theorem C5_counterexample :
    noDoubleSemi (clean_css ((".x \x7b\na:b;,;\n\x7d").data)) = false := by
  decide

/-- C5 (amended): the whole-text regex cleanup that does exist — the
final three substitutions of the legacy `clean_css` in `workflow.py` —
guarantees on every input text no run of two consecutive semicolons and
no semicolon immediately preceding an opening brace. -/
theorem C5_second_pass_postcondition (s : List Char) :
    noDoubleSemi (finalCleanup s) = true ∧ noSemiBrace (finalCleanup s) = true :=
  finalCleanup_clean s

/-- C6 counterexample: `"a\n"` contains no attribute spelling and no
denylisted import, yet `clean_imports` returns `"a"`, because
`splitlines` plus newline-join drops the trailing newline. -/
theorem C6_counterexample :
    containsSub spClassEq (("a\n").data) = false ∧
    containsSub dqClassPat (("a\n").data) = false ∧
    containsSub sqClassPat (("a\n").data) = false ∧
    (∀ l ∈ splitlinesPy (("a\n").data), skipLine l = false) ∧
    clean_imports (("a\n").data) ≠ ("a\n").data := by
  refine ⟨by decide, by decide, by decide, by decide, by decide⟩

/-- C6 (amended): `clean_imports` is the identity on code that contains
none of the three `class` attribute spellings, has no line with both
`import` and a denylisted fragment, uses only `\n` as line separator and
does not end with a newline. -/
theorem C6_clean_imports_noop (s : List Char)
    (h1 : containsSub spClassEq s = false) (h2 : containsSub dqClassPat s = false)
    (h3 : containsSub sqClassPat s = false)
    (h4 : ∀ l ∈ splitlinesPy s, skipLine l = false)
    (h5 : ∀ c ∈ s, isLineBreak c = true → c = lf)
    (h6 : s.getLast? ≠ some lf) :
    clean_imports s = s := by
  by_cases hnil : s = []
  · rw [hnil]; rfl
  · have hbeq : (s == ([] : List Char)) = false := by
      cases hx : (s == ([] : List Char)) with
      | false => rfl
      | true => exact absurd (by rwa [beq_iff_eq] at hx) hnil
    simp only [clean_imports, hbeq, Bool.false_eq_true, if_false]
    rw [replaceStr_id h1, replaceStr_id h2, replaceStr_id h3]
    have hfilter : (splitlinesPy s).filter (fun l => !skipLine l) = splitlinesPy s := by
      rw [List.filter_eq_self]
      intro l hl
      rw [h4 l hl]
      rfl
    rw [hfilter]
    exact splitlines_roundtrip h5 h6

/-- C6 witness: ordinary two-line code with an allowed import is returned
unchanged. -/
theorem C6_witness :
    containsSub spClassEq (("import React from 'react';\nok").data) = false ∧
    (∀ l ∈ splitlinesPy (("import React from 'react';\nok").data), skipLine l = false) ∧
    clean_imports (("import React from 'react';\nok").data) =
      ("import React from 'react';\nok").data :=
  ⟨by decide, by decide,
   C6_clean_imports_noop (("import React from 'react';\nok").data)
     (by decide) (by decide) (by decide) (by decide) (by decide) (by decide)⟩

/-- C7: denylist postcondition — no line of the output of
`clean_imports` contains a denylisted fragment together with the
substring `import`. -/
theorem C7_denylist_postcondition (s l : List Char)
    (hl : l ∈ splitlinesPy (clean_imports s)) :
    skipLine l = false := by
  by_cases hnil : s = []
  · rw [hnil] at hl
    exact absurd hl (List.not_mem_nil l)
  · have hbeq : (s == ([] : List Char)) = false := by
      cases hx : (s == ([] : List Char)) with
      | false => rfl
      | true => exact absurd (by rwa [beq_iff_eq] at hx) hnil
    simp only [clean_imports, hbeq, Bool.false_eq_true, if_false] at hl
    have hKfree : ∀ k ∈ (splitlinesPy (replaceStr sqClassPat sqClassNamePat
        (replaceStr dqClassPat dqClassNamePat
          (replaceStr spClassEq spClassNameEq s)))).filter (fun l => !skipLine l),
        ∀ c ∈ k, isLineBreak c = false := by
      intro k hk
      exact splitlinesPy_break_free _ k (List.mem_of_mem_filter hk)
    have hmem := splitlines_join_subset _ hKfree l hl
    have hp := List.of_mem_filter hmem
    simpa using hp

/-- C7 witness: a denylisted import line is dropped and the surviving
line is clean. -/
theorem C7_witness :
    ("ok").data ∈ splitlinesPy (clean_imports (("import A from 'antd';\nok").data)) ∧
    skipLine (("ok").data) = false :=
  ⟨by decide,
   C7_denylist_postcondition (("import A from 'antd';\nok").data) (("ok").data) (by decide)⟩

/-- C8: a text with no triple-backtick at all yields the empty pair from
`extract_code_and_css` and the trimmed whole input from `extract_code`;
no error is signalled. -/
theorem C8_no_fence_degrades (s : List Char) (h : containsSub bq3 s = false) :
    extract_code_and_cssO s = some ([], []) ∧ extract_code s = stripPy s := by
  constructor
  · unfold extract_code_and_cssO fencesO
    rw [no_bq3_scanFences s.length s le_rfl h]
    have hsu := no_bq3_searchUntagged s h
    simp [classify, hsu, clean_imports]
  · unfold extract_code
    rw [no_bq3_searchCode s h]

/-- C8 witness: plain prose with no fence. -/
theorem C8_witness :
    containsSub bq3 (("  hello world ").data) = false ∧
    extract_code_and_cssO (("  hello world ").data) = some ([], []) ∧
    extract_code (("  hello world ").data) = stripPy (("  hello world ").data) :=
  ⟨by decide, (C8_no_fence_degrades (("  hello world ").data) (by decide)).1,
   (C8_no_fence_degrades (("  hello world ").data) (by decide)).2⟩

/-- C9: brace-depth invariant of the CSS repair loop — after each line
the counter is nonnegative, and a line that is exactly a closing brace
decrements it, clamping to zero and resetting the state when it would
drop to zero or below. -/
theorem C9_brace_depth_invariant :
    (∀ (pre : List (List Char)), 0 ≤ (cssRun initCssSt pre).braceCount) ∧
    (∀ (st : CssSt) (l : List Char), stripPy l = [rbrace] →
      (cssStep st l).1 =
        if st.braceCount - 1 ≤ 0 then (⟨false, false, false, 0⟩ : CssSt)
        else { st with braceCount := st.braceCount - 1 }) :=
  ⟨fun pre => cssRun_nonneg pre initCssSt (by decide),
   fun st l h => cssStep_closing st l h⟩

/-- C9 witness: a rule followed by a stray extra closing brace keeps the
counter at zero. -/
theorem C9_witness :
    0 ≤ (cssRun initCssSt [((".a \x7b").data), (("b: c;").data), (("\x7d").data),
      (("\x7d").data)]).braceCount ∧
    stripPy (("  \x7d ").data) = [rbrace] ∧
    (cssStep initCssSt (("  \x7d ").data)).1 = (⟨false, false, false, 0⟩ : CssSt) :=
  ⟨C9_brace_depth_invariant.1 _, by decide,
   by rw [C9_brace_depth_invariant.2 initCssSt (("  \x7d ").data) (by decide)]; decide⟩

/-- C10: the empty string short-circuits both sanitizers — `clean_css`
returns the empty string with no baseline `:root` block prepended, and
`clean_imports` returns the empty string. -/
theorem C10_empty_input :
    clean_css [] = [] ∧ containsSub rootTok (clean_css []) = false ∧
    clean_imports [] = [] := by
  decide

end Sanitizer
